import Mathlib

/-!
# Verification of the clippie clipboard-history manager

A shallow embedding of the core of the `clippie` repository (Rust) in Lean 4,
with theorems settling the frozen claims about its specification.

Conventions used throughout:
* Rust `String`/`&str` values are modelled as `List Char` (Unicode scalar
  values).  Where the Rust code works with *byte* offsets into UTF-8 encoded
  text (e.g. `str::find`, `str::len`), the byte view is recovered with
  `utf8Len`/`byteLen` below.
* Machine integers (`i64`, `i32`, SQLite row ids, timestamps) are modelled as
  `Int`; the values involved never approach the overflow boundary, and no
  wrapping arithmetic occurs in the modelled code.
* Fallible operations either return `Option` or are modelled on their
  non-error path when the only error source is the external environment
  (I/O); each such spot is noted in the corresponding doc comment.
-/

namespace Clippie

/-- Number of bytes of the UTF-8 encoding of a character, as computed by
Rust's `char::len_utf8` (used implicitly by `str::find` and `str::len`,
which work in byte offsets). -/
def utf8Len (c : Char) : Nat :=
  if c.toNat ≤ 0x7F then 1
  else if c.toNat ≤ 0x7FF then 2
  else if c.toNat ≤ 0xFFFF then 3
  else 4

/-- Byte length of the UTF-8 encoding of a string. -/
def byteLen (s : List Char) : Nat :=
  (s.map utf8Len).sum

/-- Per-character lowercase mapping used by `str::to_lowercase` in
`src/tui/fuzzy.rs`.  Modelled on the Basic Latin and Latin-1 ranges, where
Rust's mapping is a one-to-one codepoint shift (`A`–`Z` and `À`–`Þ` except
`×` map 32 codepoints up); characters outside these ranges are mapped to
themselves.  Every character appearing in this development is mapped exactly
as Rust maps it. -/
def charLower (c : Char) : Char :=
  if 65 ≤ c.toNat ∧ c.toNat ≤ 90 then Char.ofNat (c.toNat + 32)
  else if 0xC0 ≤ c.toNat ∧ c.toNat ≤ 0xDE ∧ c.toNat ≠ 0xD7 then Char.ofNat (c.toNat + 32)
  else c

/-- Rust's `char::is_whitespace`: membership in the Unicode `White_Space`
set (used by `str::trim` in `src/daemon.rs`). -/
def rustIsWhitespace (c : Char) : Bool :=
  let n := c.toNat
  (9 ≤ n && n ≤ 13) || n == 32 || n == 0x85 || n == 0xA0 || n == 0x1680 ||
  (0x2000 ≤ n && n ≤ 0x200A) || n == 0x2028 || n == 0x2029 || n == 0x202F ||
  n == 0x205F || n == 0x3000

/-- Rust's `str::trim`: drop leading and trailing whitespace characters. -/
def trim (s : List Char) : List Char :=
  ((s.dropWhile rustIsWhitespace).reverse.dropWhile rustIsWhitespace).reverse

/-! ## Fuzzy matcher (`src/tui/fuzzy.rs`) -/

/-- Result of `fuzzy_match` (struct `FuzzyMatch` in `src/tui/fuzzy.rs`). -/
structure FuzzyMatch where
  matched : Bool
  match_positions : List (Nat × Nat)
  is_exact : Bool
deriving DecidableEq

/-- `text_lower.find(&query_lower)` from `src/tui/fuzzy.rs`, at the level of
characters: the least character index of `t` at which `q` occurs as a
contiguous substring (Rust returns the corresponding byte offset; `fuzzy_match`
below converts with `byteLen`, which is faithful because UTF-8 substring
occurrences start only at character boundaries). -/
def findSub (q : List Char) : List Char → Option Nat
  | [] => if q = [] then some 0 else none
  | c :: t => if (c :: t).take q.length = q then some 0 else (findSub q t).map (· + 1)

/-- The subsequence scan of `fuzzy_match` (the nested `while let` loops in
`src/tui/fuzzy.rs`): walk the enumerated text left to right, greedily
consuming query characters in order; record each hit as a `(index, 1)` pair.
Returns `none` when some query character cannot be found before the text is
exhausted. -/
def fuzzyScan : List (Nat × Char) → List Char → Option (List (Nat × Nat))
  | _, [] => some []
  | [], _ :: _ => none
  | (i, t) :: ts, q :: qs =>
      if t = q then (fuzzyScan ts qs).map (fun r => (i, 1) :: r)
      else fuzzyScan ts (q :: qs)

/-- The merge loop at the end of `fuzzy_match`: fuse adjacent
`(position, length)` hits into contiguous ranges. -/
def mergeAdjacent : List (Nat × Nat) → List (Nat × Nat)
  | [] => []
  | [p] => [p]
  | (p₁, l₁) :: (p₂, l₂) :: rest =>
      if p₁ + l₁ = p₂ then mergeAdjacent ((p₁, l₁ + l₂) :: rest)
      else (p₁, l₁) :: mergeAdjacent ((p₂, l₂) :: rest)
termination_by l => l.length

/-- `fuzzy_match(text, query)` from `src/tui/fuzzy.rs`.

Lowercase both strings; try a contiguous substring match first (on success the
single reported range is the *byte* offset and *byte* length, exactly as
Rust's `text_lower.find` / `query_lower.len()` produce); otherwise run the
greedy subsequence scan over the *character* enumeration of the lowered text
and merge adjacent hits. -/
def fuzzy_match (text query : List Char) : FuzzyMatch :=
  let text_lower := text.map charLower
  let query_lower := query.map charLower
  match findSub query_lower text_lower with
  | some i =>
      { matched := true
        match_positions := [(byteLen (text_lower.take i), byteLen query_lower)]
        is_exact := true }
  | none =>
      match fuzzyScan text_lower.enum query_lower with
      | none => { matched := false, match_positions := [], is_exact := false }
      | some ps => { matched := true, match_positions := mergeAdjacent ps, is_exact := false }

/-! ## Content store (`src/db.rs`)

The SQLite-backed store is modelled as a list of rows plus the
`AUTOINCREMENT` counter.  Connection handling, `PRAGMA`s, and I/O failures
are environment concerns outside the model; every modelled operation is the
non-error path of the corresponding `rusqlite` call, with the one genuinely
fallible query (`SELECT id … WHERE content_hash`, which can return no rows)
modelled by `Option`. -/

/-- A row of the `clipboard_entries` table (struct `ClipboardEntry` in
`src/db.rs`); timestamps are Unix seconds, as stored by the schema. -/
structure ClipboardEntry where
  id : Int
  content : List Char
  content_hash : List Char
  created_at : Int
  last_copied : Int
  copy_count : Int
deriving DecidableEq

/-- The store: rows of `clipboard_entries` in rowid order plus the next
`AUTOINCREMENT` id. -/
structure DB where
  rows : List ClipboardEntry
  next_id : Int
deriving DecidableEq

/-- The `INSERT` in `insert_entry` fails with `UNIQUE constraint failed`
exactly when some existing row collides on `content` or on `content_hash`
(both columns are declared `UNIQUE` in `initialize_schema`). -/
def hasConflict (rows : List ClipboardEntry) (content content_hash : List Char) : Bool :=
  rows.any fun r => decide (r.content = content) || decide (r.content_hash = content_hash)

/-- The `UPDATE … WHERE content_hash = ?` of `insert_entry`, applied to one
row: bump `last_copied` and `copy_count` when the hash matches. -/
def touchRow (now : Int) (content_hash : List Char) (r : ClipboardEntry) : ClipboardEntry :=
  if r.content_hash = content_hash then
    { r with last_copied := now, copy_count := r.copy_count + 1 }
  else r

/-- First row with the given `content_hash`
(`SELECT id FROM clipboard_entries WHERE content_hash = ?1`). -/
def findRowByHash (rows : List ClipboardEntry) (content_hash : List Char) :
    Option ClipboardEntry :=
  rows.find? fun r => decide (r.content_hash = content_hash)

/-- `Database::insert_entry` (`src/db.rs`), the `insert_or_touch` operation:
try to insert a fresh row with `copy_count = 1`; on a uniqueness conflict
update `last_copied`/`copy_count` of the row with this hash instead and
return its id.  `now` stands for `Utc::now().timestamp()`.  The returned
`Option Int` is `none` exactly when the post-update id lookup finds no row
(the `QueryReturnedNoRows` error path). -/
def insert_entry (db : DB) (content content_hash : List Char) (now : Int) :
    DB × Option Int :=
  if hasConflict db.rows content content_hash then
    let rows' := db.rows.map (touchRow now content_hash)
    ({ db with rows := rows' }, (findRowByHash rows' content_hash).map (·.id))
  else
    ({ rows := db.rows ++ [⟨db.next_id, content, content_hash, now, now, 1⟩],
       next_id := db.next_id + 1 },
     some db.next_id)

/-- Stable insertion step for `sortBy` below: place `x` before the first
element it does not compare greater than. -/
def insertOrd (cmp : α → α → Ordering) (x : α) : List α → List α
  | [] => [x]
  | y :: ys => if cmp x y = Ordering.gt then y :: insertOrd cmp x ys else x :: y :: ys

/-- Stable comparison sort (the documented contract of `Vec::sort_by` and of
SQLite `ORDER BY` as used here): insertion sort, keeping the original
relative order of elements that compare equal. -/
def sortBy (cmp : α → α → Ordering) : List α → List α
  | [] => []
  | x :: xs => insertOrd cmp x (sortBy cmp xs)

/-- `Database::get_all_entries`: all rows ordered by `last_copied`
descending (`ORDER BY last_copied DESC`), equal keys kept in row order. -/
def get_all_entries (db : DB) : List ClipboardEntry :=
  sortBy (fun a b => compare b.last_copied a.last_copied) db.rows

/-- `Database::clear_all`: delete every row, returning the count deleted. -/
def clear_all (db : DB) : DB × Int :=
  ({ db with rows := [] }, db.rows.length)

/-- Modelled from the spec: `delete_by_id(id)` (§4.1 of the spec).  The
function `Database::delete_entry_by_id` is called from
`src/tui/handlers.rs` but its definition is missing from the `src/db.rs`
snapshot; per the spec it removes the row with the given id, and per its
call site it reports whether a row was removed. -/
def delete_entry_by_id (db : DB) (id : Int) : DB × Bool :=
  ({ db with rows := db.rows.filter fun r => decide (r.id ≠ id) },
   db.rows.any fun r => decide (r.id = id))

/-- Modelled from the spec: `delete_by_content(content)` (§4.1 of the
spec).  The function `Database::delete_entry_by_content` is called from
`src/tui/app.rs` but its definition is missing from the `src/db.rs`
snapshot; per the spec it removes the row with the given content, and per
its call site it reports whether a row was removed. -/
def delete_entry_by_content (db : DB) (content : List Char) : DB × Bool :=
  ({ db with rows := db.rows.filter fun r => decide (r.content ≠ content) },
   db.rows.any fun r => decide (r.content = content))

/-- Modelled from the spec: period-scoped bulk delete (§4.4, bulk delete of
a chosen period).  `Database::delete_entries_from_last_days` is called from
`src/tui/handlers.rs` but missing from the `src/db.rs` snapshot: remove the
rows created within the last `n` days, returning the count removed. -/
def delete_entries_from_last_days (db : DB) (n : Int) (now : Int) : DB × Int :=
  let keep : List ClipboardEntry := db.rows.filter fun r => decide (r.created_at < now - n * 86400)
  ({ db with rows := keep }, db.rows.length - keep.length)

/-- Modelled from the spec: as `delete_entries_from_last_days`, for hours
(`Database::delete_entries_from_last_hours`, also missing from the
snapshot). -/
def delete_entries_from_last_hours (db : DB) (n : Int) (now : Int) : DB × Int :=
  let keep : List ClipboardEntry := db.rows.filter fun r => decide (r.created_at < now - n * 3600)
  ({ db with rows := keep }, db.rows.length - keep.length)

/-! ## Daemon loop (`src/daemon.rs`) -/

/-- `MIN_CONTENT_LENGTH` from `src/daemon.rs`. -/
def MIN_CONTENT_LENGTH : Nat := 1

/-- Outcome of one `get_clipboard_content()` call: `ok none` is an empty or
non-text clipboard, `err` a clipboard access error. -/
inductive ClipRead
  | ok : Option (List Char) → ClipRead
  | err : ClipRead
deriving DecidableEq

/-- In-memory daemon state (`DaemonState` in `src/daemon.rs`, minus the
database handle, which the model threads separately). -/
structure DaemonSt where
  last_change_count : Int
  last_content : Option (List Char)
deriving DecidableEq

/-- `DaemonState::check_stability` (`src/daemon.rs`): `read1` is the
clipboard read on entry, `read2` the re-read after the stability-window
sleep.  Returns the updated `last_content` and the list of contents passed
to `insert_entry` (at most one; insert errors are logged and swallowed, so
the store side is fully described by this list).  The byte length of the
trimmed content (`content.trim().len()`) gates recording. -/
def check_stability (last_content : Option (List Char)) (read1 read2 : ClipRead) :
    Option (List Char) × List (List Char) :=
  match read1 with
  | .ok (some content) =>
      if byteLen (trim content) < MIN_CONTENT_LENGTH then (last_content, [])
      else if last_content ≠ some content then
        match read2 with
        | .ok (some new_content) =>
            if new_content = content then (some content, [content])
            else (some content, [])
        | .ok none => (some content, [])
        | .err => (some content, [])
      else (last_content, [])
  | .ok none => (last_content, [])
  | .err => (last_content, [])

/-- Modelled from the spec: `check_stability` with the pause gate of §4.2
step 1 and §6 ("presence of a sentinel marker resource suspends persistence
writes … without suspending detection").  The pause-marker check is missing
from the `src/daemon.rs` snapshot (no marker is read anywhere under `src/`);
following the spec's words, the marker suppresses only the `insert_entry`
call, leaving every read and state update of `check_stability` in place. -/
def check_stability_gated (paused : Bool) (last_content : Option (List Char))
    (read1 read2 : ClipRead) : Option (List Char) × List (List Char) :=
  match read1 with
  | .ok (some content) =>
      if byteLen (trim content) < MIN_CONTENT_LENGTH then (last_content, [])
      else if last_content ≠ some content then
        match read2 with
        | .ok (some new_content) =>
            if new_content = content then (some content, if paused then [] else [content])
            else (some content, [])
        | .ok none => (some content, [])
        | .err => (some content, [])
      else (last_content, [])
  | .ok none => (last_content, [])
  | .err => (last_content, [])

/-- One iteration of `DaemonState::run` (`src/daemon.rs`), with the
spec-modelled pause marker threaded through `check_stability_gated`:
compare the clipboard change token against `last_change_count`
(`check_clipboard`); on a change, update the stored token and run the
stability check.  `token` is the value returned by
`get_clipboard_change_count()` this cycle; the returned list is the
contents persisted during the cycle. -/
def daemon_cycle (paused : Bool) (st : DaemonSt) (token : Int) (read1 read2 : ClipRead) :
    DaemonSt × List (List Char) :=
  if token ≠ st.last_change_count then
    let res := check_stability_gated paused st.last_content read1 read2
    (⟨token, res.1⟩, res.2)
  else (st, [])

/-! ## Browser state machine (`src/tui/app.rs`, `src/tui/handlers.rs`)

The `App` struct is modelled with the fields the state machine reads or
writes; `db_path` (and the `Database::open` it feeds) is replaced by
threading the store itself through a `World`, on the non-error path of
`open`.  The purely cosmetic fields `terminal_width` and `loading` are
omitted.  On-screen messages are identified by which `show_message` call
produced them. -/

/-- `DeletePeriod` (`src/tui/app.rs`). -/
inductive DeletePeriod
  | hour | day | week | month | year | all
deriving DecidableEq

/-- `DeleteMode` (`src/tui/app.rs`); the `u8` confirmation counter is a
`Nat` (its reachable values are `0`, `1`, `2`). -/
inductive DeleteMode
  | none
  | selectingPeriod
  | confirmingBulk (period : DeletePeriod)
  | confirmingSingle
  | confirmingAll (confirmation_count : Nat)
deriving DecidableEq

/-- Identifies the `show_message` call sites of `src/tui/app.rs` and
`src/tui/handlers.rs` (the formatted message texts themselves carry no
state). -/
inductive AppMsg
  | refreshed
  | entryDeleted
  | noEntryToDelete
  | entryDeletedOk
  | entryNotFound
  | deletedCount (n : Int)
  | deletedAll (n : Int)
  | errUseDeleteAll
deriving DecidableEq

/-- The `App` struct (`src/tui/app.rs`). -/
structure App where
  entries : List ClipboardEntry
  selected_index : Nat
  scroll_offset : Nat
  filter_text : List Char
  is_filtering : Bool
  message : Option AppMsg
  selected_entry : Option (List Char)
  preview_scroll : Nat
  tick_count : Nat
  terminal_height : Nat
  delete_mode : DeleteMode
  delete_period_index : Nat
deriving DecidableEq

/-- The comparator passed to `sort_by` in `App::filtered_entries`: an entry
with an exact match sorts before one with only a fuzzy match; everything
else compares equal.  As in the source, the matcher is re-run on each
comparison. -/
def exactCmp (filter_text : List Char) (a b : ClipboardEntry) : Ordering :=
  match (fuzzy_match a.content filter_text).is_exact,
        (fuzzy_match b.content filter_text).is_exact with
  | true, false => Ordering.lt
  | false, true => Ordering.gt
  | _, _ => Ordering.eq

/-- `App::filtered_entries`: with an empty filter, all entries; otherwise
the matcher-accepted entries, stably sorted so exact matches come first. -/
def filtered_entries (app : App) : List ClipboardEntry :=
  if app.filter_text = [] then app.entries
  else
    sortBy (exactCmp app.filter_text)
      (app.entries.filter fun e => (fuzzy_match e.content app.filter_text).matched)

/-- `App::current_entry`. -/
def current_entry (app : App) : Option ClipboardEntry :=
  (filtered_entries app).get? app.selected_index

/-- `App::get_list_height`. -/
def get_list_height (app : App) : Nat :=
  app.terminal_height - 4

/-- `App::select_up`. -/
def select_up (app : App) : App :=
  if 0 < app.selected_index then
    let app := { app with selected_index := app.selected_index - 1, preview_scroll := 0 }
    if app.selected_index < app.scroll_offset then
      { app with scroll_offset := app.selected_index }
    else app
  else app

/-- `App::select_down`. -/
def select_down (app : App) : App :=
  if app.selected_index < (filtered_entries app).length - 1 then
    let app := { app with selected_index := app.selected_index + 1, preview_scroll := 0 }
    if app.scroll_offset + get_list_height app ≤ app.selected_index then
      { app with scroll_offset := app.selected_index - get_list_height app + 1 }
    else app
  else app

/-- `App::reset_selection`. -/
def reset_selection (app : App) : App :=
  { app with selected_index := 0, scroll_offset := 0, preview_scroll := 0 }

/-- `App::start_filtering`. -/
def start_filtering (app : App) : App :=
  reset_selection { app with is_filtering := true, filter_text := [] }

/-- `App::stop_filtering`. -/
def stop_filtering (app : App) : App :=
  reset_selection { app with is_filtering := false, filter_text := [] }

/-- `App::filter_push`. -/
def filter_push (c : Char) (app : App) : App :=
  reset_selection { app with filter_text := app.filter_text ++ [c] }

/-- `App::filter_pop`. -/
def filter_pop (app : App) : App :=
  reset_selection { app with filter_text := app.filter_text.dropLast }

/-- `App::confirm_filter`. -/
def confirm_filter (app : App) : App :=
  { app with is_filtering := false }

/-- `App::select_entry` (state effect; the returned content is
`selected_entry`). -/
def select_entry (app : App) : App :=
  match current_entry app with
  | some e => { app with selected_entry := some e.content }
  | Option.none => app

/-- `App::show_message`. -/
def show_message (m : AppMsg) (app : App) : App :=
  { app with message := some m }

/-- `App::scroll_preview_up`. -/
def scroll_preview_up (app : App) : App :=
  { app with preview_scroll := app.preview_scroll - 1 }

/-- `App::scroll_preview_down`. -/
def scroll_preview_down (app : App) : App :=
  { app with preview_scroll := app.preview_scroll + 1 }

/-- `App::start_bulk_delete`. -/
def start_bulk_delete (app : App) : App :=
  { app with delete_mode := DeleteMode.selectingPeriod, delete_period_index := 0 }

/-- `App::start_single_delete`. -/
def start_single_delete (app : App) : App :=
  if (current_entry app).isSome then { app with delete_mode := DeleteMode.confirmingSingle }
  else app

/-- `App::cancel_delete`. -/
def cancel_delete (app : App) : App :=
  { app with delete_mode := DeleteMode.none, delete_period_index := 0 }

/-- `App::delete_period_up`. -/
def delete_period_up (app : App) : App :=
  if 0 < app.delete_period_index then
    { app with delete_period_index := app.delete_period_index - 1 }
  else app

/-- `App::delete_period_down`. -/
def delete_period_down (app : App) : App :=
  if app.delete_period_index < 5 then
    { app with delete_period_index := app.delete_period_index + 1 }
  else app

/-- `App::confirm_delete_period`. -/
def confirm_delete_period (app : App) : App :=
  let period := match app.delete_period_index with
    | 0 => DeletePeriod.hour
    | 1 => DeletePeriod.day
    | 2 => DeletePeriod.week
    | 3 => DeletePeriod.month
    | 4 => DeletePeriod.year
    | 5 => DeletePeriod.all
    | _ => DeletePeriod.day
  if period = DeletePeriod.all then
    { app with delete_mode := DeleteMode.confirmingAll 0 }
  else
    { app with delete_mode := DeleteMode.confirmingBulk period }

/-- `App::is_in_delete_mode`. -/
def is_in_delete_mode (app : App) : Bool :=
  decide (app.delete_mode ≠ DeleteMode.none)

/-- `App::refresh` (`src/tui/app.rs`): re-read the store and replace the
cached entries — resetting selection and scroll — only when the length or
some `(content, last_copied)` pair differs.  The `Database::open` error
path leaves the app unchanged and is not modelled. -/
def refresh (app : App) (db : DB) : App :=
  let new_entries := get_all_entries db
  let changed := decide (new_entries.length ≠ app.entries.length) ||
    (new_entries.zip app.entries).any fun p =>
      decide (p.1.content ≠ p.2.content) || decide (p.1.last_copied ≠ p.2.last_copied)
  if changed then
    { app with entries := new_entries, selected_index := 0, scroll_offset := 0 }
  else app

/-- `App::on_tick`: every 50th tick triggers a refresh. -/
def on_tick (app : App) (db : DB) : App :=
  let app := { app with tick_count := app.tick_count + 1 }
  if 50 ≤ app.tick_count then refresh { app with tick_count := 0 } db
  else app

/-- The browser session's world: the store file and the in-memory app. -/
structure World where
  db : DB
  app : App
deriving DecidableEq

/-- `App::delete_current_entry` (`src/tui/app.rs`): delete the selected
entry's content from the store, drop it from the cached entries, and clamp
the selection into the new filtered bounds.  Returns whether an entry was
deleted. -/
def delete_current_entry (w : World) : World × Bool :=
  match current_entry w.app with
  | some entry =>
      let res := delete_entry_by_content w.db entry.content
      if res.2 then
        let app := { w.app with
          entries := w.app.entries.filter fun e => decide (e.content ≠ entry.content) }
        let filtered_len := (filtered_entries app).length
        let app :=
          if filtered_len ≤ app.selected_index ∧ 0 < filtered_len then
            { app with selected_index := filtered_len - 1 }
          else app
        (⟨res.1, app⟩, true)
      else (⟨res.1, w.app⟩, false)
  | Option.none => (w, false)

/-! ### Event handling (`src/tui/handlers.rs`) -/

/-- The `crossterm` key codes matched by the handlers. -/
inductive KeyCode
  | char (c : Char)
  | up | down | left | right
  | enter | esc | backspace | delete
  | pageUp | pageDown
deriving DecidableEq

/-- `KeyModifiers` as three flag bits; `noMods`, `ctrlOnly` and `shiftOnly`
are the values the handlers compare against, and
`contains(CONTROL | ALT)` is `ctrl && alt`. -/
structure Mods where
  ctrl : Bool
  alt : Bool
  shiftKey : Bool
deriving DecidableEq

def Mods.noMods : Mods := ⟨false, false, false⟩

def Mods.ctrlOnly : Mods := ⟨true, false, false⟩

def Mods.shiftOnly : Mods := ⟨false, false, true⟩

/-- A key event. -/
structure KeyEvent where
  code : KeyCode
  mods : Mods
deriving DecidableEq

/-- `EventHandler::perform_single_delete` (`src/tui/handlers.rs`), on the
non-error path of `Database::open`. -/
def perform_single_delete (w : World) : World :=
  let w : World :=
    match current_entry w.app with
    | some entry =>
        let res := delete_entry_by_id w.db entry.id
        if res.2 then
          ⟨res.1, refresh (show_message AppMsg.entryDeletedOk w.app) res.1⟩
        else
          ⟨res.1, show_message AppMsg.entryNotFound w.app⟩
    | Option.none => w
  ⟨w.db, cancel_delete w.app⟩

/-- `EventHandler::perform_delete_all` (`src/tui/handlers.rs`), on the
non-error path of `Database::open`. -/
def perform_delete_all (w : World) : World :=
  let res := clear_all w.db
  ⟨res.1, cancel_delete (refresh (show_message (AppMsg.deletedAll res.2) w.app) res.1)⟩

/-- `EventHandler::perform_bulk_delete` (`src/tui/handlers.rs`), on the
non-error path of `Database::open`; `now` stands for the current time used
by the period cutoffs. -/
def perform_bulk_delete (w : World) (period : DeletePeriod) (now : Int) : World :=
  match period with
  | DeletePeriod.all =>
      ⟨w.db, cancel_delete (show_message AppMsg.errUseDeleteAll w.app)⟩
  | _ =>
      let res := match period with
        | DeletePeriod.hour => delete_entries_from_last_hours w.db 1 now
        | DeletePeriod.day => delete_entries_from_last_days w.db 1 now
        | DeletePeriod.week => delete_entries_from_last_days w.db 7 now
        | DeletePeriod.month => delete_entries_from_last_days w.db 30 now
        | DeletePeriod.year => delete_entries_from_last_days w.db 365 now
        | DeletePeriod.all => (w.db, 0)
      ⟨res.1, cancel_delete (refresh (show_message (AppMsg.deletedCount res.2) w.app) res.1)⟩

/-- `EventHandler::handle_delete_mode` (`src/tui/handlers.rs`).  Returns the
new world and the should-exit flag. -/
def handle_delete_mode (key : KeyEvent) (w : World) (now : Int) : World × Bool :=
  match w.app.delete_mode with
  | DeleteMode.selectingPeriod =>
      if (key.code = KeyCode.up ∨ key.code = KeyCode.char 'k') ∧ key.mods = Mods.noMods then
        (⟨w.db, delete_period_up w.app⟩, false)
      else if (key.code = KeyCode.down ∨ key.code = KeyCode.char 'j') ∧ key.mods = Mods.noMods then
        (⟨w.db, delete_period_down w.app⟩, false)
      else if key.code = KeyCode.enter then
        (⟨w.db, confirm_delete_period w.app⟩, false)
      else if (key.code = KeyCode.esc ∨ key.code = KeyCode.char 'q') ∧ key.mods = Mods.noMods then
        (⟨w.db, cancel_delete w.app⟩, false)
      else (w, false)
  | DeleteMode.confirmingSingle =>
      if key.code = KeyCode.char 'y' ∨ key.code = KeyCode.char 'Y' then
        (perform_single_delete w, false)
      else if key.code = KeyCode.char 'n' ∨ key.code = KeyCode.char 'N' ∨ key.code = KeyCode.esc then
        (⟨w.db, cancel_delete w.app⟩, false)
      else (w, false)
  | DeleteMode.confirmingBulk period =>
      if key.code = KeyCode.char 'y' ∨ key.code = KeyCode.char 'Y' then
        (perform_bulk_delete w period now, false)
      else if key.code = KeyCode.char 'n' ∨ key.code = KeyCode.char 'N' ∨ key.code = KeyCode.esc then
        (⟨w.db, cancel_delete w.app⟩, false)
      else (w, false)
  | DeleteMode.confirmingAll confirmation_count =>
      if key.code = KeyCode.char 'y' ∨ key.code = KeyCode.char 'Y' then
        if 2 ≤ confirmation_count then (perform_delete_all w, false)
        else
          (⟨w.db, { w.app with delete_mode := DeleteMode.confirmingAll (confirmation_count + 1) }⟩,
           false)
      else if key.code = KeyCode.char 'n' ∨ key.code = KeyCode.char 'N' ∨ key.code = KeyCode.esc then
        (⟨w.db, cancel_delete w.app⟩, false)
      else (w, false)
  | DeleteMode.none => (w, false)

/-- `EventHandler::handle_filter_mode` (`src/tui/handlers.rs`). -/
def handle_filter_mode (key : KeyEvent) (app : App) : App × Bool :=
  if key.code = KeyCode.esc then (stop_filtering app, false)
  else if key.code = KeyCode.enter then (confirm_filter app, false)
  else if key.code = KeyCode.backspace ∨ key.code = KeyCode.delete then (filter_pop app, false)
  else
    match key.code with
    | KeyCode.char c =>
        if key.mods.ctrl && key.mods.alt then (app, false)
        else (filter_push c app, false)
    | _ => (app, false)

/-- `EventHandler::handle_key` (`src/tui/handlers.rs`); Rust's match arms
with guards are rendered as a guard chain, so a failing modifier guard falls
through to the later arms exactly as in the source. -/
def handle_key (key : KeyEvent) (w : World) (now : Int) : World × Bool :=
  if is_in_delete_mode w.app then handle_delete_mode key w now
  else if w.app.is_filtering then
    let res := handle_filter_mode key w.app
    (⟨w.db, res.1⟩, res.2)
  else
    if (key.code = KeyCode.up ∨ key.code = KeyCode.char 'k') ∧ key.mods = Mods.noMods then
      (⟨w.db, select_up w.app⟩, false)
    else if (key.code = KeyCode.down ∨ key.code = KeyCode.char 'j') ∧ key.mods = Mods.noMods then
      (⟨w.db, select_down w.app⟩, false)
    else if key.code = KeyCode.enter then
      (⟨w.db, select_entry w.app⟩, true)
    else if key.code = KeyCode.char '/' ∧ key.mods = Mods.noMods then
      (⟨w.db, start_filtering w.app⟩, false)
    else if key.code = KeyCode.char 'r' ∧ key.mods = Mods.noMods then
      (⟨w.db, show_message AppMsg.refreshed (refresh w.app w.db)⟩, false)
    else if key.code = KeyCode.char 'd' ∧ key.mods = Mods.noMods then
      let res := delete_current_entry w
      (⟨res.1.db,
        show_message (if res.2 then AppMsg.entryDeleted else AppMsg.noEntryToDelete) res.1.app⟩,
       false)
    else if (key.code = KeyCode.char 'h' ∨ key.code = KeyCode.left) ∧ key.mods = Mods.noMods then
      (⟨w.db, scroll_preview_up w.app⟩, false)
    else if (key.code = KeyCode.char 'l' ∨ key.code = KeyCode.right) ∧ key.mods = Mods.noMods then
      (⟨w.db, scroll_preview_down w.app⟩, false)
    else if key.code = KeyCode.pageUp then
      (⟨w.db, scroll_preview_up^[10] w.app⟩, false)
    else if key.code = KeyCode.pageDown then
      (⟨w.db, scroll_preview_down^[10] w.app⟩, false)
    else if (key.code = KeyCode.char 'q' ∨ key.code = KeyCode.esc) ∧ key.mods = Mods.noMods then
      if w.app.is_filtering = true ∨ w.app.filter_text ≠ [] then
        (⟨w.db, stop_filtering w.app⟩, false)
      else (w, true)
    else if key.code = KeyCode.char 'c' ∧ key.mods = Mods.ctrlOnly then (w, true)
    else if key.code = KeyCode.char 'x' ∧ key.mods = Mods.noMods then
      (⟨w.db, start_single_delete w.app⟩, false)
    else if key.code = KeyCode.delete ∧ key.mods = Mods.noMods then
      (⟨w.db, start_single_delete w.app⟩, false)
    else if key.code = KeyCode.char 'd' ∧ key.mods = Mods.ctrlOnly then
      (⟨w.db, start_bulk_delete w.app⟩, false)
    else if key.code = KeyCode.char 'D' ∧ key.mods = Mods.shiftOnly then
      (⟨w.db, start_bulk_delete w.app⟩, false)
    else (w, false)

/-! ## Helper lemmas -/

theorem findSub_nil_query (t : List Char) : findSub [] t = some 0 := by
  cases t <;> simp [findSub]

theorem hasConflict_eq_false {rows : List ClipboardEntry} {c h : List Char}
    (hc : c ∉ rows.map (·.content)) (hh : h ∉ rows.map (·.content_hash)) :
    hasConflict rows c h = false := by
  simp only [hasConflict, List.any_eq_false]
  intro r hr
  have h1 : ¬ r.content = c := fun e => hc (List.mem_map.mpr ⟨r, hr, e⟩)
  have h2 : ¬ r.content_hash = h := fun e => hh (List.mem_map.mpr ⟨r, hr, e⟩)
  simp [h1, h2]

theorem map_touchRow_eq {rows : List ClipboardEntry} {h : List Char} (now : Int)
    (hh : h ∉ rows.map (·.content_hash)) :
    rows.map (touchRow now h) = rows := by
  induction rows with
  | nil => rfl
  | cons r rs ih =>
      have h1 : ¬ r.content_hash = h := fun e => hh (List.mem_map.mpr ⟨r, List.mem_cons_self r rs, e⟩)
      have h2 : h ∉ rs.map (·.content_hash) := by
        intro hm
        exact hh (List.map_cons (·.content_hash) r rs ▸ List.mem_cons_of_mem _ hm)
      simp [touchRow, h1, ih h2]

theorem find?_hash_eq_none {rows : List ClipboardEntry} {h : List Char}
    (hh : h ∉ rows.map (·.content_hash)) :
    rows.find? (fun r => decide (r.content_hash = h)) = none := by
  rw [List.find?_eq_none]
  intro r hr
  have : ¬ r.content_hash = h := fun e => hh (List.mem_map.mpr ⟨r, hr, e⟩)
  simp [this]

theorem find?_append_of_none {α : Type} {p : α → Bool} {l₁ l₂ : List α}
    (h : l₁.find? p = none) :
    (l₁ ++ l₂).find? p = l₂.find? p := by
  induction l₁ with
  | nil => rfl
  | cons x xs ih =>
      cases hp : p x with
      | true => simp [List.find?_cons, hp] at h
      | false =>
          simp only [List.find?_cons, hp] at h
          simpa [List.find?_cons, hp] using ih h

/-! ## Claims -/

/-- C10: the empty query is found as an exact substring at position 0 — for
every text, `fuzzy_match text ""` yields `matched = true`, `exact = true`,
and the single zero-length range `(0, 0)` — and with an empty filter the
browser's filtered view is exactly the cached entry list in its original
order, bypassing the matcher. -/
theorem C10_empty_query_and_empty_filter :
    (∀ text : List Char, fuzzy_match text [] = ⟨true, [(0, 0)], true⟩) ∧
    (∀ app : App, app.filter_text = [] → filtered_entries app = app.entries) := by
  constructor
  · intro text
    simp [fuzzy_match, findSub_nil_query, byteLen]
  · intro app hf
    simp [filtered_entries, hf]

/-- Witness for C10 at concrete inputs. -/
theorem C10_empty_query_and_empty_filter_witness :
    fuzzy_match "abc".toList [] = ⟨true, [(0, 0)], true⟩ ∧
    (⟨[⟨1, "abc".toList, "h1".toList, 0, 5, 1⟩], 0, 0, [], false, none, none, 0, 0, 24,
        DeleteMode.none, 0⟩ : App).filter_text = [] ∧
    filtered_entries
        ⟨[⟨1, "abc".toList, "h1".toList, 0, 5, 1⟩], 0, 0, [], false, none, none, 0, 0, 24,
          DeleteMode.none, 0⟩
      = [⟨1, "abc".toList, "h1".toList, 0, 5, 1⟩] :=
  ⟨C10_empty_query_and_empty_filter.1 "abc".toList, rfl,
   C10_empty_query_and_empty_filter.2 _ rfl⟩

/-- C1: inserting content whose hash is not yet in the store and then calling
`insert_entry` again with the identical content returns the same id both
times, increments `copy_count` from 1 to 2, sets `last_copied` to the second
call's time while `created_at` keeps the first call's time, leaves the row
count unchanged, and adds exactly one row for the hash — so at most one row
exists per distinct content hash. -/
theorem C1_insert_or_touch_dedup (db : DB) (c h : List Char) (t₁ t₂ : Int)
    (hc : c ∉ db.rows.map (·.content)) (hh : h ∉ db.rows.map (·.content_hash)) :
    (insert_entry db c h t₁).2 = some db.next_id ∧
    (insert_entry (insert_entry db c h t₁).1 c h t₂).2 = some db.next_id ∧
    (insert_entry (insert_entry db c h t₁).1 c h t₂).1.rows.length
      = (insert_entry db c h t₁).1.rows.length ∧
    findRowByHash (insert_entry db c h t₁).1.rows h = some ⟨db.next_id, c, h, t₁, t₁, 1⟩ ∧
    findRowByHash (insert_entry (insert_entry db c h t₁).1 c h t₂).1.rows h
      = some ⟨db.next_id, c, h, t₁, t₂, 2⟩ ∧
    (insert_entry (insert_entry db c h t₁).1 c h t₂).1.rows.map (·.content_hash)
      = db.rows.map (·.content_hash) ++ [h] := by
  have hcf : hasConflict db.rows c h = false := hasConflict_eq_false hc hh
  have e₁ : insert_entry db c h t₁
      = (⟨db.rows ++ [⟨db.next_id, c, h, t₁, t₁, 1⟩], db.next_id + 1⟩, some db.next_id) := by
    simp [insert_entry, hcf]
  have hcf₂ : hasConflict (db.rows ++ [⟨db.next_id, c, h, t₁, t₁, 1⟩]) c h = true := by
    simp [hasConflict, List.any_append]
  have hmap : (db.rows ++ [(⟨db.next_id, c, h, t₁, t₁, 1⟩ : ClipboardEntry)]).map (touchRow t₂ h)
      = db.rows ++ [⟨db.next_id, c, h, t₁, t₂, 2⟩] := by
    rw [List.map_append, map_touchRow_eq t₂ hh]
    simp [touchRow]
  have e₂ : insert_entry (insert_entry db c h t₁).1 c h t₂
      = (⟨db.rows ++ [⟨db.next_id, c, h, t₁, t₂, 2⟩], db.next_id + 1⟩,
         some db.next_id) := by
    rw [e₁]
    simp only [insert_entry, hcf₂, if_pos, hmap]
    simp only [Prod.mk.injEq, true_and]
    simp only [findRowByHash, find?_append_of_none (find?_hash_eq_none hh)]
    simp [List.find?_cons]
  refine ⟨by rw [e₁], by rw [e₂], by rw [e₂, e₁]; simp, ?_, ?_, ?_⟩
  · rw [e₁]
    simp only [findRowByHash, find?_append_of_none (find?_hash_eq_none hh)]
    simp [List.find?_cons]
  · rw [e₂]
    simp only [findRowByHash, find?_append_of_none (find?_hash_eq_none hh)]
    simp [List.find?_cons]
  · rw [e₂]
    simp

/-- Witness for C1: the dedup behaviour on a concrete store. -/
theorem C1_insert_or_touch_dedup_witness :
    ("abc".toList ∉ (⟨[], 1⟩ : DB).rows.map (·.content)) ∧
    (insert_entry (insert_entry ⟨[], 1⟩ "abc".toList "h1".toList 10).1
        "abc".toList "h1".toList 20).2 = some 1 ∧
    findRowByHash (insert_entry (insert_entry ⟨[], 1⟩ "abc".toList "h1".toList 10).1
        "abc".toList "h1".toList 20).1.rows "h1".toList
      = some ⟨1, "abc".toList, "h1".toList, 10, 20, 2⟩ :=
  ⟨by decide,
   (C1_insert_or_touch_dedup ⟨[], 1⟩ "abc".toList "h1".toList 10 20
      (by decide) (by decide)).2.1,
   (C1_insert_or_touch_dedup ⟨[], 1⟩ "abc".toList "h1".toList 10 20
      (by decide) (by decide)).2.2.2.2.1⟩

/-- C2: in the per-cycle stability check, a clipboard value that reads back
different after the stability window is never passed to `insert_entry`; a
value unchanged across the window is persisted exactly once; and a candidate
whose trimmed length is below `MIN_CONTENT_LENGTH` (whitespace-only) is
rejected before the window and never persisted. -/
theorem C2_stability_debounce :
    (∀ (last_content : Option (List Char)) (content new_content : List Char),
      MIN_CONTENT_LENGTH ≤ byteLen (trim content) →
      last_content ≠ some content →
      new_content ≠ content →
      check_stability last_content (ClipRead.ok (some content)) (ClipRead.ok (some new_content))
        = (some content, [])) ∧
    (∀ (last_content : Option (List Char)) (content : List Char),
      MIN_CONTENT_LENGTH ≤ byteLen (trim content) →
      last_content ≠ some content →
      check_stability last_content (ClipRead.ok (some content)) (ClipRead.ok (some content))
        = (some content, [content])) ∧
    (∀ (last_content : Option (List Char)) (content : List Char) (read2 : ClipRead),
      byteLen (trim content) < MIN_CONTENT_LENGTH →
      check_stability last_content (ClipRead.ok (some content)) read2
        = (last_content, [])) := by
  refine ⟨?_, ?_, ?_⟩
  · intro lc content nc hlen hne hch
    have h1 : ¬ byteLen (trim content) < MIN_CONTENT_LENGTH := by omega
    simp [check_stability, h1, hne, hch]
  · intro lc content hlen hne
    have h1 : ¬ byteLen (trim content) < MIN_CONTENT_LENGTH := by omega
    simp [check_stability, h1, hne]
  · intro lc content read2 hlen
    simp [check_stability, hlen]

/-- Witness for C2 at concrete inputs: `"abc"` changing to `"abx"` is not
persisted, `"abc"` stable is persisted once, and whitespace-only `"  "` is
rejected. -/
theorem C2_stability_debounce_witness :
    check_stability none (ClipRead.ok (some "abc".toList)) (ClipRead.ok (some "abx".toList))
      = (some "abc".toList, []) ∧
    check_stability none (ClipRead.ok (some "abc".toList)) (ClipRead.ok (some "abc".toList))
      = (some "abc".toList, ["abc".toList]) ∧
    check_stability none (ClipRead.ok (some "  ".toList)) (ClipRead.ok (some "  ".toList))
      = (none, []) :=
  ⟨C2_stability_debounce.1 none "abc".toList "abx".toList (by decide) (by decide) (by decide),
   C2_stability_debounce.2.1 none "abc".toList (by decide) (by decide),
   C2_stability_debounce.2.2 none "  ".toList _ (by decide)⟩

theorem check_stability_gated_writes_nil (last_content : Option (List Char))
    (read1 read2 : ClipRead) :
    (check_stability_gated true last_content read1 read2).2 = [] := by
  rcases read1 with (_ | c) | _
  · rfl
  · rcases read2 with (_ | n) | _ <;>
      simp only [check_stability_gated] <;> (try split_ifs) <;> simp_all
  · rfl

theorem check_stability_gated_state (paused : Bool) (last_content : Option (List Char))
    (read1 read2 : ClipRead) :
    (check_stability_gated paused last_content read1 read2).1
      = (check_stability last_content read1 read2).1 := by
  rcases read1 with (_ | c) | _
  · rfl
  · rcases read2 with (_ | n) | _ <;>
      simp only [check_stability_gated, check_stability] <;> (try split_ifs) <;> simp_all
  · rfl

theorem check_stability_gated_false (last_content : Option (List Char))
    (read1 read2 : ClipRead) :
    check_stability_gated false last_content read1 read2
      = check_stability last_content read1 read2 := by
  rcases read1 with (_ | c) | _
  · rfl
  · rcases read2 with (_ | n) | _ <;>
      simp only [check_stability_gated, check_stability] <;> (try split_ifs) <;> simp_all
  · rfl

/-- C3: in every daemon cycle with the pause marker set, nothing is passed
to `insert_entry`, while change detection and the candidate state evolve
exactly as in an unpaused cycle; with the marker absent, the cycle is the
unmodified source `check_stability` behaviour. -/
theorem C3_pause_suppresses_writes_only :
    (∀ (st : DaemonSt) (token : Int) (read1 read2 : ClipRead),
      (daemon_cycle true st token read1 read2).2 = []) ∧
    (∀ (st : DaemonSt) (token : Int) (read1 read2 : ClipRead),
      (daemon_cycle true st token read1 read2).1
        = (daemon_cycle false st token read1 read2).1) ∧
    (∀ (last_content : Option (List Char)) (read1 read2 : ClipRead),
      check_stability_gated false last_content read1 read2
        = check_stability last_content read1 read2) := by
  refine ⟨?_, ?_, fun lc r1 r2 => check_stability_gated_false lc r1 r2⟩
  · intro st token r1 r2
    simp only [daemon_cycle]
    split
    · exact check_stability_gated_writes_nil st.last_content r1 r2
    · rfl
  · intro st token r1 r2
    simp only [daemon_cycle]
    split
    · simp only [check_stability_gated_state]
    · rfl

theorem confirmingAll_y_increments (w : World) (now : Int) (cnt : Nat) (m : Mods)
    (hdm : w.app.delete_mode = DeleteMode.confirmingAll cnt) (hlt : cnt < 2) :
    handle_delete_mode ⟨KeyCode.char 'y', m⟩ w now
      = (⟨w.db, { w.app with delete_mode := DeleteMode.confirmingAll (cnt + 1) }⟩, false) := by
  have h2 : ¬ 2 ≤ cnt := by omega
  simp [handle_delete_mode, hdm, h2]

theorem confirmingAll_y_wipes (w : World) (now : Int) (cnt : Nat) (m : Mods)
    (hdm : w.app.delete_mode = DeleteMode.confirmingAll cnt) (hge : 2 ≤ cnt) :
    handle_delete_mode ⟨KeyCode.char 'y', m⟩ w now = (perform_delete_all w, false) := by
  simp [handle_delete_mode, hdm, hge]

theorem perform_delete_all_rows (w : World) : (perform_delete_all w).db.rows = [] := by
  simp [perform_delete_all, clear_all]

theorem perform_delete_all_mode (w : World) :
    (perform_delete_all w).app.delete_mode = DeleteMode.none := by
  simp [perform_delete_all, cancel_delete]

/-- C4 (amended): in the delete-all flow starting from `ConfirmingAll` with
`confirmation_count = 0`, two affirmative (`y`) inputs delete nothing from the
store and the third deletes everything and leaves the flow (resetting the
counter state); the cancel keys `n`/`N`/`Escape` reset the flow at any point;
but any *other* key leaves the confirmation counter untouched rather than
resetting it (so the three affirmatives need not be consecutive). -/
theorem C4_delete_all_friction (w : World) (now : Int) :
    (∀ cnt m, w.app.delete_mode = DeleteMode.confirmingAll cnt → cnt < 2 →
      handle_delete_mode ⟨KeyCode.char 'y', m⟩ w now
        = (⟨w.db, { w.app with delete_mode := DeleteMode.confirmingAll (cnt + 1) }⟩, false)) ∧
    (∀ cnt m, w.app.delete_mode = DeleteMode.confirmingAll cnt → 2 ≤ cnt →
      (handle_delete_mode ⟨KeyCode.char 'y', m⟩ w now).1.db.rows = [] ∧
      (handle_delete_mode ⟨KeyCode.char 'y', m⟩ w now).1.app.delete_mode = DeleteMode.none) ∧
    (∀ cnt (key : KeyEvent), w.app.delete_mode = DeleteMode.confirmingAll cnt →
      (key.code = KeyCode.char 'n' ∨ key.code = KeyCode.char 'N' ∨ key.code = KeyCode.esc) →
      handle_delete_mode key w now = (⟨w.db, cancel_delete w.app⟩, false) ∧
      (cancel_delete w.app).delete_mode = DeleteMode.none) ∧
    (∀ cnt (key : KeyEvent), w.app.delete_mode = DeleteMode.confirmingAll cnt →
      key.code ≠ KeyCode.char 'y' → key.code ≠ KeyCode.char 'Y' →
      key.code ≠ KeyCode.char 'n' → key.code ≠ KeyCode.char 'N' →
      key.code ≠ KeyCode.esc →
      handle_delete_mode key w now = (w, false)) ∧
    (w.app.delete_mode = DeleteMode.confirmingAll 0 →
      (handle_delete_mode ⟨KeyCode.char 'y', Mods.noMods⟩ w now).1.db = w.db ∧
      (handle_delete_mode ⟨KeyCode.char 'y', Mods.noMods⟩
        (handle_delete_mode ⟨KeyCode.char 'y', Mods.noMods⟩ w now).1 now).1.db = w.db ∧
      (handle_delete_mode ⟨KeyCode.char 'y', Mods.noMods⟩
        (handle_delete_mode ⟨KeyCode.char 'y', Mods.noMods⟩
          (handle_delete_mode ⟨KeyCode.char 'y', Mods.noMods⟩ w now).1 now).1 now).1.db.rows
        = [] ∧
      (handle_delete_mode ⟨KeyCode.char 'y', Mods.noMods⟩
        (handle_delete_mode ⟨KeyCode.char 'y', Mods.noMods⟩
          (handle_delete_mode ⟨KeyCode.char 'y', Mods.noMods⟩ w now).1 now).1 now).1.app.delete_mode
        = DeleteMode.none) := by
  refine ⟨?_, ?_, ?_, ?_, ?_⟩
  · intro cnt m hdm hlt
    exact confirmingAll_y_increments w now cnt m hdm hlt
  · intro cnt m hdm hge
    rw [confirmingAll_y_wipes w now cnt m hdm hge]
    exact ⟨perform_delete_all_rows w, perform_delete_all_mode w⟩
  · intro cnt key hdm hkey
    obtain ⟨kc, km⟩ := key
    rcases hkey with h | h | h <;> (simp only at h; subst h; exact ⟨by simp [handle_delete_mode, hdm], rfl⟩)
  · intro cnt key hdm h1 h2 h3 h4 h5
    simp [handle_delete_mode, hdm, h1, h2, h3, h4, h5]
  · intro hdm0
    have s1 := confirmingAll_y_increments w now 0 Mods.noMods hdm0 (by omega)
    rw [s1]
    have s2 := confirmingAll_y_increments
      (⟨w.db, { w.app with delete_mode := DeleteMode.confirmingAll 1 }⟩) now 1 Mods.noMods rfl
      (by omega)
    rw [s2]
    have s3 := confirmingAll_y_wipes
      (⟨w.db, { w.app with delete_mode := DeleteMode.confirmingAll 2 }⟩) now 2 Mods.noMods rfl
      (by omega)
    rw [s3]
    exact ⟨rfl, rfl, perform_delete_all_rows _, perform_delete_all_mode _⟩

/-- Counterexample to C4 as stated: in `ConfirmingAll` with the counter at 1,
the non-affirmative key `a` does *not* reset the confirmation counter to zero
— the state (counter included) is left untouched. -/
theorem C4_delete_all_friction_counterexample :
    (handle_delete_mode ⟨KeyCode.char 'a', Mods.noMods⟩
        ⟨⟨[⟨1, "abc".toList, "h1".toList, 0, 5, 1⟩], 2⟩,
         ⟨[⟨1, "abc".toList, "h1".toList, 0, 5, 1⟩], 0, 0, [], false, none, none, 0, 0, 24,
          DeleteMode.confirmingAll 1, 0⟩⟩ 0).1.app.delete_mode
      = DeleteMode.confirmingAll 1 := by
  decide

/-- Witness for C4 on a concrete world in the delete-all flow. -/
theorem C4_delete_all_friction_witness :
    ((⟨⟨[⟨1, "abc".toList, "h1".toList, 0, 5, 1⟩], 2⟩,
       ⟨[⟨1, "abc".toList, "h1".toList, 0, 5, 1⟩], 0, 0, [], false, none, none, 0, 0, 24,
        DeleteMode.confirmingAll 0, 0⟩⟩ : World).app.delete_mode
      = DeleteMode.confirmingAll 0) ∧
    (handle_delete_mode ⟨KeyCode.char 'y', Mods.noMods⟩
      (handle_delete_mode ⟨KeyCode.char 'y', Mods.noMods⟩
        (handle_delete_mode ⟨KeyCode.char 'y', Mods.noMods⟩
          ⟨⟨[⟨1, "abc".toList, "h1".toList, 0, 5, 1⟩], 2⟩,
           ⟨[⟨1, "abc".toList, "h1".toList, 0, 5, 1⟩], 0, 0, [], false, none, none, 0, 0, 24,
            DeleteMode.confirmingAll 0, 0⟩⟩ 0).1 0).1 0).1.db.rows = [] :=
  ⟨rfl,
   ((C4_delete_all_friction
      ⟨⟨[⟨1, "abc".toList, "h1".toList, 0, 5, 1⟩], 2⟩,
       ⟨[⟨1, "abc".toList, "h1".toList, 0, 5, 1⟩], 0, 0, [], false, none, none, 0, 0, 24,
        DeleteMode.confirmingAll 0, 0⟩⟩ 0).2.2.2.2 rfl).2.2.1⟩

theorem handle_key_db_eq (key : KeyEvent) (w : World) (now : Int)
    (hdm : w.app.delete_mode = DeleteMode.none) (hf : w.app.is_filtering = false)
    (hk : key ≠ ⟨KeyCode.char 'd', Mods.noMods⟩) :
    (handle_key key w now).1.db = w.db := by
  obtain ⟨kc, km⟩ := key
  have hd : is_in_delete_mode w.app = false := by simp [is_in_delete_mode, hdm]
  unfold handle_key
  rw [hd, hf]
  rw [if_neg (show ¬ false = true by decide), if_neg (show ¬ false = true by decide)]
  by_cases h1 : (kc = KeyCode.up ∨ kc = KeyCode.char 'k') ∧ km = Mods.noMods
  · rw [if_pos h1]
  rw [if_neg h1]
  by_cases h2 : (kc = KeyCode.down ∨ kc = KeyCode.char 'j') ∧ km = Mods.noMods
  · rw [if_pos h2]
  rw [if_neg h2]
  by_cases h3 : kc = KeyCode.enter
  · rw [if_pos h3]
  rw [if_neg h3]
  by_cases h4 : kc = KeyCode.char '/' ∧ km = Mods.noMods
  · rw [if_pos h4]
  rw [if_neg h4]
  by_cases h5 : kc = KeyCode.char 'r' ∧ km = Mods.noMods
  · rw [if_pos h5]
  rw [if_neg h5]
  by_cases h6 : kc = KeyCode.char 'd' ∧ km = Mods.noMods
  · exact absurd (by rw [h6.1, h6.2]) hk
  rw [if_neg h6]
  by_cases h7 : (kc = KeyCode.char 'h' ∨ kc = KeyCode.left) ∧ km = Mods.noMods
  · rw [if_pos h7]
  rw [if_neg h7]
  by_cases h8 : (kc = KeyCode.char 'l' ∨ kc = KeyCode.right) ∧ km = Mods.noMods
  · rw [if_pos h8]
  rw [if_neg h8]
  by_cases h9 : kc = KeyCode.pageUp
  · rw [if_pos h9]
  rw [if_neg h9]
  by_cases h10 : kc = KeyCode.pageDown
  · rw [if_pos h10]
  rw [if_neg h10]
  by_cases h11 : (kc = KeyCode.char 'q' ∨ kc = KeyCode.esc) ∧ km = Mods.noMods
  · rw [if_pos h11]
    by_cases h11a : false = true ∨ w.app.filter_text ≠ []
    · rw [if_pos h11a]
    · rw [if_neg h11a]
  rw [if_neg h11]
  by_cases h12 : kc = KeyCode.char 'c' ∧ km = Mods.ctrlOnly
  · rw [if_pos h12]
  rw [if_neg h12]
  by_cases h13 : kc = KeyCode.char 'x' ∧ km = Mods.noMods
  · rw [if_pos h13]
  rw [if_neg h13]
  by_cases h14 : kc = KeyCode.delete ∧ km = Mods.noMods
  · rw [if_pos h14]
  rw [if_neg h14]
  by_cases h15 : kc = KeyCode.char 'd' ∧ km = Mods.ctrlOnly
  · rw [if_pos h15]
  rw [if_neg h15]
  by_cases h16 : kc = KeyCode.char 'D' ∧ km = Mods.shiftOnly
  · rw [if_pos h16]
  rw [if_neg h16]

theorem handle_key_x (w : World) (now : Int)
    (hdm : w.app.delete_mode = DeleteMode.none) (hf : w.app.is_filtering = false) :
    handle_key ⟨KeyCode.char 'x', Mods.noMods⟩ w now
      = (⟨w.db, start_single_delete w.app⟩, false) := by
  have hd : is_in_delete_mode w.app = false := by simp [is_in_delete_mode, hdm]
  unfold handle_key
  rw [hd, hf]
  rw [if_neg (show ¬ false = true by decide), if_neg (show ¬ false = true by decide),
    if_neg (by decide), if_neg (by decide), if_neg (by decide), if_neg (by decide),
    if_neg (by decide), if_neg (by decide), if_neg (by decide), if_neg (by decide),
    if_neg (by decide), if_neg (by decide), if_neg (by decide), if_neg (by decide),
    if_pos (by decide)]

theorem handle_key_delete (w : World) (now : Int)
    (hdm : w.app.delete_mode = DeleteMode.none) (hf : w.app.is_filtering = false) :
    handle_key ⟨KeyCode.delete, Mods.noMods⟩ w now
      = (⟨w.db, start_single_delete w.app⟩, false) := by
  have hd : is_in_delete_mode w.app = false := by simp [is_in_delete_mode, hdm]
  unfold handle_key
  rw [hd, hf]
  rw [if_neg (show ¬ false = true by decide), if_neg (show ¬ false = true by decide),
    if_neg (by decide), if_neg (by decide), if_neg (by decide), if_neg (by decide),
    if_neg (by decide), if_neg (by decide), if_neg (by decide), if_neg (by decide),
    if_neg (by decide), if_neg (by decide), if_neg (by decide), if_neg (by decide),
    if_neg (by decide), if_pos (by decide)]

theorem handle_key_d (w : World) (now : Int)
    (hdm : w.app.delete_mode = DeleteMode.none) (hf : w.app.is_filtering = false) :
    handle_key ⟨KeyCode.char 'd', Mods.noMods⟩ w now
      = (⟨(delete_current_entry w).1.db,
          show_message
            (if (delete_current_entry w).2 = true then AppMsg.entryDeleted
             else AppMsg.noEntryToDelete)
            (delete_current_entry w).1.app⟩, false) := by
  have hd : is_in_delete_mode w.app = false := by simp [is_in_delete_mode, hdm]
  unfold handle_key
  rw [hd, hf]
  rw [if_neg (show ¬ false = true by decide), if_neg (show ¬ false = true by decide),
    if_neg (by decide), if_neg (by decide), if_neg (by decide), if_neg (by decide),
    if_neg (by decide), if_pos (by decide)]

theorem delete_current_entry_spec (w : World) (e : ClipboardEntry)
    (hcur : current_entry w.app = some e) :
    (delete_current_entry w).1.db.rows
      = w.db.rows.filter (fun r => decide (r.content ≠ e.content)) ∧
    (delete_current_entry w).1.app.delete_mode = w.app.delete_mode := by
  simp only [delete_current_entry, hcur]
  by_cases hb : (delete_entry_by_content w.db e.content).2 = true
  · rw [if_pos hb]
    refine ⟨rfl, ?_⟩
    split <;> rfl
  · rw [if_neg hb]
    exact ⟨rfl, rfl⟩

theorem handle_key_in_delete_mode (key : KeyEvent) (w : World) (now : Int)
    (hd : is_in_delete_mode w.app = true) :
    handle_key key w now = handle_delete_mode key w now := by
  unfold handle_key
  rw [hd, if_pos rfl]

theorem confirmingSingle_y (w : World) (now : Int) (m : Mods)
    (hdm : w.app.delete_mode = DeleteMode.confirmingSingle) :
    handle_delete_mode ⟨KeyCode.char 'y', m⟩ w now = (perform_single_delete w, false) := by
  simp [handle_delete_mode, hdm]

theorem confirmingSingle_n (w : World) (now : Int) (m : Mods)
    (hdm : w.app.delete_mode = DeleteMode.confirmingSingle) :
    handle_delete_mode ⟨KeyCode.char 'n', m⟩ w now = (⟨w.db, cancel_delete w.app⟩, false) := by
  simp [handle_delete_mode, hdm]

theorem perform_single_delete_spec (w : World) (e : ClipboardEntry)
    (hcur : current_entry w.app = some e) :
    (perform_single_delete w).db.rows
      = w.db.rows.filter (fun r => decide (r.id ≠ e.id)) ∧
    (perform_single_delete w).app.delete_mode = DeleteMode.none := by
  simp only [perform_single_delete, hcur]
  constructor
  · split <;> rfl
  · rfl

/-- C5 (amended): the `x` and `Delete` keys start the confirmed single-delete
flow — they enter `ConfirmingSingle` without touching the store, and in
`ConfirmingSingle` an affirmative `y` performs the delete while `n` cancels
it with the store untouched; no Normal-mode key other than `d` changes the
store at all; but the `d` key in Normal mode deletes the currently selected
entry immediately, without ever entering `ConfirmingSingle` or receiving a
confirmation. -/
theorem C5_single_delete_confirmation (w : World) (now : Int) :
    (∀ key : KeyEvent, w.app.delete_mode = DeleteMode.none →
      w.app.is_filtering = false → key ≠ ⟨KeyCode.char 'd', Mods.noMods⟩ →
      (handle_key key w now).1.db = w.db) ∧
    (w.app.delete_mode = DeleteMode.none → w.app.is_filtering = false →
      (current_entry w.app).isSome = true →
      (handle_key ⟨KeyCode.char 'x', Mods.noMods⟩ w now).1.app.delete_mode
          = DeleteMode.confirmingSingle ∧
      (handle_key ⟨KeyCode.delete, Mods.noMods⟩ w now).1.app.delete_mode
          = DeleteMode.confirmingSingle) ∧
    (∀ e : ClipboardEntry, w.app.delete_mode = DeleteMode.none →
      w.app.is_filtering = false → current_entry w.app = some e →
      (handle_key ⟨KeyCode.char 'd', Mods.noMods⟩ w now).1.db.rows
          = w.db.rows.filter (fun r => decide (r.content ≠ e.content)) ∧
      (handle_key ⟨KeyCode.char 'd', Mods.noMods⟩ w now).1.app.delete_mode
          = DeleteMode.none) ∧
    (∀ (e : ClipboardEntry) (m : Mods), w.app.delete_mode = DeleteMode.confirmingSingle →
      current_entry w.app = some e →
      (handle_key ⟨KeyCode.char 'y', m⟩ w now).1.db.rows
          = w.db.rows.filter (fun r => decide (r.id ≠ e.id)) ∧
      (handle_key ⟨KeyCode.char 'y', m⟩ w now).1.app.delete_mode = DeleteMode.none) ∧
    (∀ m : Mods, w.app.delete_mode = DeleteMode.confirmingSingle →
      handle_key ⟨KeyCode.char 'n', m⟩ w now = (⟨w.db, cancel_delete w.app⟩, false) ∧
      (cancel_delete w.app).delete_mode = DeleteMode.none) := by
  refine ⟨?_, ?_, ?_, ?_, ?_⟩
  · intro key hdm hf hk
    exact handle_key_db_eq key w now hdm hf hk
  · intro hdm hf hcur
    rw [handle_key_x w now hdm hf, handle_key_delete w now hdm hf]
    constructor <;> simp [start_single_delete, hcur]
  · intro e hdm hf hcur
    rw [handle_key_d w now hdm hf]
    have hspec := delete_current_entry_spec w e hcur
    exact ⟨hspec.1, by simp only [show_message]; rw [hspec.2]; exact hdm⟩
  · intro e m hdm hcur
    have hd : is_in_delete_mode w.app = true := by simp [is_in_delete_mode, hdm]
    rw [handle_key_in_delete_mode _ w now hd, confirmingSingle_y w now m hdm]
    exact perform_single_delete_spec w e hcur
  · intro m hdm
    have hd : is_in_delete_mode w.app = true := by simp [is_in_delete_mode, hdm]
    rw [handle_key_in_delete_mode _ w now hd, confirmingSingle_n w now m hdm]
    exact ⟨rfl, rfl⟩

/-- Counterexample to C5 as stated: on a concrete world holding one entry, in
Normal mode, the single key `d` removes the entry from the store although the
state machine never enters `ConfirmingSingle` and no affirmative response is
given. -/
theorem C5_single_delete_confirmation_counterexample :
    ((⟨⟨[⟨1, "abc".toList, "h1".toList, 0, 5, 1⟩], 2⟩,
       ⟨[⟨1, "abc".toList, "h1".toList, 0, 5, 1⟩], 0, 0, [], false, none, none, 0, 0, 24,
        DeleteMode.none, 0⟩⟩ : World).db.rows.length = 1) ∧
    ((⟨⟨[⟨1, "abc".toList, "h1".toList, 0, 5, 1⟩], 2⟩,
       ⟨[⟨1, "abc".toList, "h1".toList, 0, 5, 1⟩], 0, 0, [], false, none, none, 0, 0, 24,
        DeleteMode.none, 0⟩⟩ : World).app.delete_mode = DeleteMode.none) ∧
    (handle_key ⟨KeyCode.char 'd', Mods.noMods⟩
        ⟨⟨[⟨1, "abc".toList, "h1".toList, 0, 5, 1⟩], 2⟩,
         ⟨[⟨1, "abc".toList, "h1".toList, 0, 5, 1⟩], 0, 0, [], false, none, none, 0, 0, 24,
          DeleteMode.none, 0⟩⟩ 0).1.db.rows.length = 0 ∧
    (handle_key ⟨KeyCode.char 'd', Mods.noMods⟩
        ⟨⟨[⟨1, "abc".toList, "h1".toList, 0, 5, 1⟩], 2⟩,
         ⟨[⟨1, "abc".toList, "h1".toList, 0, 5, 1⟩], 0, 0, [], false, none, none, 0, 0, 24,
          DeleteMode.none, 0⟩⟩ 0).1.app.delete_mode = DeleteMode.none := by
  decide

/-- Witness for C5 on a concrete world: the `x` key enters `ConfirmingSingle`
without touching the store. -/
theorem C5_single_delete_confirmation_witness :
    ((current_entry
        (⟨⟨[⟨1, "abc".toList, "h1".toList, 0, 5, 1⟩], 2⟩,
          ⟨[⟨1, "abc".toList, "h1".toList, 0, 5, 1⟩], 0, 0, [], false, none, none, 0, 0, 24,
           DeleteMode.none, 0⟩⟩ : World).app).isSome = true) ∧
    (handle_key ⟨KeyCode.char 'x', Mods.noMods⟩
        ⟨⟨[⟨1, "abc".toList, "h1".toList, 0, 5, 1⟩], 2⟩,
         ⟨[⟨1, "abc".toList, "h1".toList, 0, 5, 1⟩], 0, 0, [], false, none, none, 0, 0, 24,
          DeleteMode.none, 0⟩⟩ 0).1.app.delete_mode = DeleteMode.confirmingSingle :=
  ⟨by decide,
   ((C5_single_delete_confirmation
      ⟨⟨[⟨1, "abc".toList, "h1".toList, 0, 5, 1⟩], 2⟩,
       ⟨[⟨1, "abc".toList, "h1".toList, 0, 5, 1⟩], 0, 0, [], false, none, none, 0, 0, 24,
        DeleteMode.none, 0⟩⟩ 0).2.1 rfl rfl (by decide)).1⟩

theorem clamp_core (a1 : App) (s : Nat) (hsel : a1.selected_index = s) :
    (0 < (filtered_entries (if (filtered_entries a1).length ≤ s ∧ 0 < (filtered_entries a1).length
            then { a1 with selected_index := (filtered_entries a1).length - 1 } else a1)).length →
      (if (filtered_entries a1).length ≤ s ∧ 0 < (filtered_entries a1).length
            then { a1 with selected_index := (filtered_entries a1).length - 1 } else a1).selected_index
        < (filtered_entries (if (filtered_entries a1).length ≤ s ∧ 0 < (filtered_entries a1).length
            then { a1 with selected_index := (filtered_entries a1).length - 1 } else a1)).length) ∧
    ((filtered_entries (if (filtered_entries a1).length ≤ s ∧ 0 < (filtered_entries a1).length
            then { a1 with selected_index := (filtered_entries a1).length - 1 } else a1)).length ≤ s →
      0 < (filtered_entries (if (filtered_entries a1).length ≤ s ∧ 0 < (filtered_entries a1).length
            then { a1 with selected_index := (filtered_entries a1).length - 1 } else a1)).length →
      (if (filtered_entries a1).length ≤ s ∧ 0 < (filtered_entries a1).length
            then { a1 with selected_index := (filtered_entries a1).length - 1 } else a1).selected_index
        = (filtered_entries (if (filtered_entries a1).length ≤ s ∧ 0 < (filtered_entries a1).length
            then { a1 with selected_index := (filtered_entries a1).length - 1 } else a1)).length - 1) ∧
    (s < (filtered_entries (if (filtered_entries a1).length ≤ s ∧ 0 < (filtered_entries a1).length
            then { a1 with selected_index := (filtered_entries a1).length - 1 } else a1)).length →
      (if (filtered_entries a1).length ≤ s ∧ 0 < (filtered_entries a1).length
            then { a1 with selected_index := (filtered_entries a1).length - 1 } else a1).selected_index
        = s) := by
  have hfe : filtered_entries { a1 with selected_index := (filtered_entries a1).length - 1 }
      = filtered_entries a1 := rfl
  by_cases hcl : (filtered_entries a1).length ≤ s ∧ 0 < (filtered_entries a1).length
  · rw [if_pos hcl, hfe]
    have hs2 : ({ a1 with selected_index := (filtered_entries a1).length - 1 }).selected_index
        = (filtered_entries a1).length - 1 := rfl
    rw [hs2]
    exact ⟨fun h => by omega, fun h1 h2 => rfl, fun h => by omega⟩
  · rw [if_neg hcl]
    rw [hsel]
    rw [Classical.not_and_iff_or_not_not] at hcl
    exact ⟨fun h => by omega, fun h1 h2 => by omega, fun h => rfl⟩

/-- C8: after a successful single-entry delete via `delete_current_entry`,
the selection index lies inside the new filtered view whenever that view is
non-empty; in particular, if the new filtered view became shorter than the
old selection (deleting the last visible filtered entry), the selection
moves to the new last valid index, and a selection still in bounds is left
where it was. -/
theorem C8_selection_clamp (w : World) (hs : (delete_current_entry w).2 = true) :
    (0 < (filtered_entries (delete_current_entry w).1.app).length →
      (delete_current_entry w).1.app.selected_index
        < (filtered_entries (delete_current_entry w).1.app).length) ∧
    ((filtered_entries (delete_current_entry w).1.app).length ≤ w.app.selected_index →
      0 < (filtered_entries (delete_current_entry w).1.app).length →
      (delete_current_entry w).1.app.selected_index
        = (filtered_entries (delete_current_entry w).1.app).length - 1) ∧
    (w.app.selected_index < (filtered_entries (delete_current_entry w).1.app).length →
      (delete_current_entry w).1.app.selected_index = w.app.selected_index) := by
  cases hcur : current_entry w.app with
  | none => rw [delete_current_entry] at hs; rw [hcur] at hs; simp at hs
  | some e =>
      simp only [delete_current_entry, hcur] at hs ⊢
      by_cases hb : (delete_entry_by_content w.db e.content).2 = true
      · rw [if_pos hb] at hs ⊢
        dsimp only
        exact clamp_core _ _ rfl
      · rw [if_neg hb] at hs
        simp at hs

/-- Witness for C8: deleting the last visible entry of a concrete two-entry
world moves the selection from index 1 to the new last index 0. -/
theorem C8_selection_clamp_witness :
    ((delete_current_entry
        ⟨⟨[⟨1, "abc".toList, "h1".toList, 0, 5, 1⟩, ⟨2, "xyz".toList, "h2".toList, 1, 3, 1⟩], 3⟩,
         ⟨[⟨1, "abc".toList, "h1".toList, 0, 5, 1⟩, ⟨2, "xyz".toList, "h2".toList, 1, 3, 1⟩],
          1, 0, [], false, none, none, 0, 0, 24, DeleteMode.none, 0⟩⟩).2 = true) ∧
    (delete_current_entry
        ⟨⟨[⟨1, "abc".toList, "h1".toList, 0, 5, 1⟩, ⟨2, "xyz".toList, "h2".toList, 1, 3, 1⟩], 3⟩,
         ⟨[⟨1, "abc".toList, "h1".toList, 0, 5, 1⟩, ⟨2, "xyz".toList, "h2".toList, 1, 3, 1⟩],
          1, 0, [], false, none, none, 0, 0, 24, DeleteMode.none, 0⟩⟩).1.app.selected_index
      = (filtered_entries (delete_current_entry
        ⟨⟨[⟨1, "abc".toList, "h1".toList, 0, 5, 1⟩, ⟨2, "xyz".toList, "h2".toList, 1, 3, 1⟩], 3⟩,
         ⟨[⟨1, "abc".toList, "h1".toList, 0, 5, 1⟩, ⟨2, "xyz".toList, "h2".toList, 1, 3, 1⟩],
          1, 0, [], false, none, none, 0, 0, 24, DeleteMode.none, 0⟩⟩).1.app).length - 1 :=
  ⟨by decide,
   (C8_selection_clamp
      ⟨⟨[⟨1, "abc".toList, "h1".toList, 0, 5, 1⟩, ⟨2, "xyz".toList, "h2".toList, 1, 3, 1⟩], 3⟩,
       ⟨[⟨1, "abc".toList, "h1".toList, 0, 5, 1⟩, ⟨2, "xyz".toList, "h2".toList, 1, 3, 1⟩],
        1, 0, [], false, none, none, 0, 0, 24, DeleteMode.none, 0⟩⟩
      (by decide)).2.1 (by decide) (by decide)⟩

/-- The refresh condition as the spec words it: the freshly read entry count
differs from the cached count, or some `(content, last_copied)` pair differs
at some shared position. -/
def specChanged (app : App) (db : DB) : Prop :=
  (get_all_entries db).length ≠ app.entries.length ∨
  ∃ i : Fin (min (get_all_entries db).length app.entries.length),
    ((get_all_entries db).get ⟨i.1, Nat.lt_of_lt_of_le i.2 (Nat.min_le_left _ _)⟩).content
      ≠ (app.entries.get ⟨i.1, Nat.lt_of_lt_of_le i.2 (Nat.min_le_right _ _)⟩).content ∨
    ((get_all_entries db).get ⟨i.1, Nat.lt_of_lt_of_le i.2 (Nat.min_le_left _ _)⟩).last_copied
      ≠ (app.entries.get ⟨i.1, Nat.lt_of_lt_of_le i.2 (Nat.min_le_right _ _)⟩).last_copied

theorem changed_iff (app : App) (db : DB) :
    ((decide ((get_all_entries db).length ≠ app.entries.length)) ||
      ((get_all_entries db).zip app.entries).any fun p =>
        decide (p.1.content ≠ p.2.content) || decide (p.1.last_copied ≠ p.2.last_copied)) = true
    ↔ specChanged app db := by
  rw [Bool.or_eq_true, decide_eq_true_iff, List.any_eq_true, specChanged]
  apply or_congr Iff.rfl
  constructor
  · rintro ⟨p, hp, hcond⟩
    obtain ⟨n, hn⟩ := List.mem_iff_get.mp hp
    have hzip := @List.get_zip _ _ (get_all_entries db) app.entries n
    rw [hn] at hzip
    have hlt : n.1 < min (get_all_entries db).length app.entries.length := by
      have := n.2
      simpa [List.length_zip] using this
    refine ⟨⟨n.1, hlt⟩, ?_⟩
    rw [Bool.or_eq_true, decide_eq_true_iff, decide_eq_true_iff] at hcond
    rcases hcond with hc | hc
    · left
      rw [hzip] at hc
      exact hc
    · right
      rw [hzip] at hc
      exact hc
  · rintro ⟨i, hi⟩
    have hlt : i.1 < ((get_all_entries db).zip app.entries).length := by
      have := i.2
      simpa [List.length_zip] using this
    refine ⟨((get_all_entries db).zip app.entries).get ⟨i.1, hlt⟩, List.get_mem _ _ _, ?_⟩
    have hzip := @List.get_zip _ _ (get_all_entries db) app.entries
      (⟨i.1, hlt⟩ : Fin (((get_all_entries db).zip app.entries).length))
    rw [hzip]
    rw [Bool.or_eq_true, decide_eq_true_iff, decide_eq_true_iff]
    exact hi

theorem refresh_spec (app : App) (db : DB) :
    (specChanged app db → refresh app db
        = { app with entries := get_all_entries db, selected_index := 0, scroll_offset := 0 }) ∧
    (¬ specChanged app db → refresh app db = app) := by
  constructor
  · intro hch
    have hb := (changed_iff app db).mpr hch
    simp only [refresh]
    rw [if_pos hb]
  · intro hch
    have hb : ¬ ((decide ((get_all_entries db).length ≠ app.entries.length)) ||
      ((get_all_entries db).zip app.entries).any fun p =>
        decide (p.1.content ≠ p.2.content) || decide (p.1.last_copied ≠ p.2.last_copied)) = true :=
      fun hb => hch ((changed_iff app db).mp hb)
    simp only [refresh]
    rw [if_neg hb]

theorem on_tick_spec (app : App) (db : DB) :
    (app.tick_count + 1 < 50 → on_tick app db = { app with tick_count := app.tick_count + 1 }) ∧
    (50 ≤ app.tick_count + 1 → on_tick app db = refresh { app with tick_count := 0 } db) := by
  constructor
  · intro h
    simp only [on_tick]
    rw [if_neg (show ¬ 50 ≤ app.tick_count + 1 by omega)]
  · intro h
    simp only [on_tick]
    rw [if_pos (show 50 ≤ app.tick_count + 1 from h)]

/-- C9: on a heartbeat refresh the browser replaces its cached entries and
resets `selected_index` and `scroll_offset` to 0 if and only if the freshly
read entry count differs from the cached count or some
`(content, last_copied)` pair differs; when nothing differs, the app state is
left entirely unchanged.  The tick handler fires a refresh exactly on every
50th tick. -/
theorem C9_heartbeat_refresh (app : App) (db : DB) :
    (specChanged app db → refresh app db
        = { app with entries := get_all_entries db, selected_index := 0, scroll_offset := 0 }) ∧
    (¬ specChanged app db → refresh app db = app) ∧
    (app.tick_count + 1 < 50 → on_tick app db = { app with tick_count := app.tick_count + 1 }) ∧
    (50 ≤ app.tick_count + 1 → on_tick app db = refresh { app with tick_count := 0 } db) :=
  ⟨(refresh_spec app db).1, (refresh_spec app db).2,
   (on_tick_spec app db).1, (on_tick_spec app db).2⟩

/-- Witness for C9: a store holding one row against an empty cache is a
change, and the refresh replaces the cache and resets the indices; a tick
below the threshold only counts. -/
theorem C9_heartbeat_refresh_witness :
    specChanged
      ⟨[], 3, 4, [], false, none, none, 0, 0, 24, DeleteMode.none, 0⟩
      ⟨[⟨1, "abc".toList, "h1".toList, 0, 5, 1⟩], 2⟩ ∧
    refresh ⟨[], 3, 4, [], false, none, none, 0, 0, 24, DeleteMode.none, 0⟩
        ⟨[⟨1, "abc".toList, "h1".toList, 0, 5, 1⟩], 2⟩
      = { (⟨[], 3, 4, [], false, none, none, 0, 0, 24, DeleteMode.none, 0⟩ : App) with
          entries := get_all_entries ⟨[⟨1, "abc".toList, "h1".toList, 0, 5, 1⟩], 2⟩,
          selected_index := 0, scroll_offset := 0 } ∧
    on_tick ⟨[], 3, 4, [], false, none, none, 0, 0, 24, DeleteMode.none, 0⟩
        ⟨[⟨1, "abc".toList, "h1".toList, 0, 5, 1⟩], 2⟩
      = { (⟨[], 3, 4, [], false, none, none, 0, 0, 24, DeleteMode.none, 0⟩ : App) with
          tick_count := 1 } :=
  ⟨Or.inl (by decide),
   (C9_heartbeat_refresh
      ⟨[], 3, 4, [], false, none, none, 0, 0, 24, DeleteMode.none, 0⟩
      ⟨[⟨1, "abc".toList, "h1".toList, 0, 5, 1⟩], 2⟩).1 (Or.inl (by decide)),
   (C9_heartbeat_refresh
      ⟨[], 3, 4, [], false, none, none, 0, 0, 24, DeleteMode.none, 0⟩
      ⟨[⟨1, "abc".toList, "h1".toList, 0, 5, 1⟩], 2⟩).2.2.1 (by decide)⟩

theorem insertOrd_exactCmp_pos (q : List Char) (x : ClipboardEntry)
    (hx : (fuzzy_match x.content q).is_exact = true) (A B : List ClipboardEntry)
    (hA : ∀ a ∈ A, (fuzzy_match a.content q).is_exact = true)
    (hB : ∀ b ∈ B, (fuzzy_match b.content q).is_exact = false) :
    insertOrd (exactCmp q) x (A ++ B) = x :: (A ++ B) := by
  cases A with
  | nil =>
      cases B with
      | nil => rfl
      | cons b B' =>
          have hb := hB b (List.mem_cons_self b B')
          simp [insertOrd, exactCmp, hx, hb]
  | cons a A' =>
      have ha := hA a (List.mem_cons_self a A')
      simp [insertOrd, exactCmp, hx, ha]

theorem insertOrd_exactCmp_neg (q : List Char) (x : ClipboardEntry)
    (hx : (fuzzy_match x.content q).is_exact = false) (A B : List ClipboardEntry)
    (hA : ∀ a ∈ A, (fuzzy_match a.content q).is_exact = true)
    (hB : ∀ b ∈ B, (fuzzy_match b.content q).is_exact = false) :
    insertOrd (exactCmp q) x (A ++ B) = A ++ x :: B := by
  induction A with
  | nil =>
      cases B with
      | nil => rfl
      | cons b B' =>
          have hb := hB b (List.mem_cons_self b B')
          simp [insertOrd, exactCmp, hx, hb]
  | cons a A' ih =>
      have ha := hA a (List.mem_cons_self a A')
      simp only [List.cons_append, insertOrd, List.append_eq]
      rw [if_pos (by simp [exactCmp, hx, ha])]
      rw [ih fun a' ha' => hA a' (List.mem_cons_of_mem _ ha')]

/-- The stable insertion sort under the two-class comparator of
`App::filtered_entries` is exactly the partition: entries with an exact match
first, then the rest, each tier in its original order. -/
theorem sortBy_exactCmp_partition (q : List Char) (l : List ClipboardEntry) :
    sortBy (exactCmp q) l
      = l.filter (fun e => (fuzzy_match e.content q).is_exact)
        ++ l.filter (fun e => !(fuzzy_match e.content q).is_exact) := by
  induction l with
  | nil => rfl
  | cons x l ih =>
      have hA : ∀ a ∈ l.filter (fun e => (fuzzy_match e.content q).is_exact),
          (fuzzy_match a.content q).is_exact = true := fun a ha => (List.mem_filter.mp ha).2
      have hB : ∀ b ∈ l.filter (fun e => !(fuzzy_match e.content q).is_exact),
          (fuzzy_match b.content q).is_exact = false := by
        intro b hb
        have := (List.mem_filter.mp hb).2
        simpa using this
      simp only [sortBy, ih]
      cases hx : (fuzzy_match x.content q).is_exact with
      | true =>
          rw [insertOrd_exactCmp_pos q x hx _ _ hA hB]
          simp [List.filter_cons, hx]
      | false =>
          rw [insertOrd_exactCmp_neg q x hx _ _ hA hB]
          simp [List.filter_cons, hx]

/-- C7: for every cached entry list and non-empty query, the filtered view is
exactly the matcher-accepted entries with every exact match before every
fuzzy-only match and the original relative order preserved within each tier
(the view equals the exact-match filter followed by the fuzzy-only filter),
and an entry appears in the view iff it is cached and the matcher accepts it. -/
theorem C7_filtered_ordering (app : App) (hq : app.filter_text ≠ []) :
    filtered_entries app
      = app.entries.filter (fun e => (fuzzy_match e.content app.filter_text).matched
          && (fuzzy_match e.content app.filter_text).is_exact)
        ++ app.entries.filter (fun e => (fuzzy_match e.content app.filter_text).matched
          && !(fuzzy_match e.content app.filter_text).is_exact) ∧
    (∀ e : ClipboardEntry, e ∈ filtered_entries app ↔
      e ∈ app.entries ∧ (fuzzy_match e.content app.filter_text).matched = true) := by
  have hmain : filtered_entries app
      = app.entries.filter (fun e => (fuzzy_match e.content app.filter_text).matched
          && (fuzzy_match e.content app.filter_text).is_exact)
        ++ app.entries.filter (fun e => (fuzzy_match e.content app.filter_text).matched
          && !(fuzzy_match e.content app.filter_text).is_exact) := by
    rw [filtered_entries, if_neg hq, sortBy_exactCmp_partition, List.filter_filter,
      List.filter_filter]
    congr 1 <;> exact List.filter_congr fun a _ => by rw [Bool.and_comm]
  refine ⟨hmain, fun e => ?_⟩
  rw [hmain]
  simp only [List.mem_append, List.mem_filter, Bool.and_eq_true]
  constructor
  · rintro (⟨hm, hmt, _⟩ | ⟨hm, hmt, _⟩) <;> exact ⟨hm, hmt⟩
  · rintro ⟨hm, hmt⟩
    cases hx : (fuzzy_match e.content app.filter_text).is_exact
    · right
      exact ⟨hm, hmt, by simp [hx]⟩
    · left
      exact ⟨hm, hmt, rfl⟩

/-- Witness for C7 on a concrete cache where a fuzzy-only match precedes the
exact match in the cache but follows it in the filtered view. -/
theorem C7_filtered_ordering_witness :
    ((⟨[⟨2, "hello".toList, "hB".toList, 0, 0, 1⟩, ⟨1, "ahlo".toList, "hA".toList, 0, 0, 1⟩,
        ⟨4, "zzz".toList, "hD".toList, 0, 0, 1⟩, ⟨3, "halxlo".toList, "hC".toList, 0, 0, 1⟩],
       0, 0, "hlo".toList, false, none, none, 0, 0, 24, DeleteMode.none, 0⟩ : App).filter_text
        ≠ []) ∧
    filtered_entries
        ⟨[⟨2, "hello".toList, "hB".toList, 0, 0, 1⟩, ⟨1, "ahlo".toList, "hA".toList, 0, 0, 1⟩,
          ⟨4, "zzz".toList, "hD".toList, 0, 0, 1⟩, ⟨3, "halxlo".toList, "hC".toList, 0, 0, 1⟩],
         0, 0, "hlo".toList, false, none, none, 0, 0, 24, DeleteMode.none, 0⟩
      = [⟨1, "ahlo".toList, "hA".toList, 0, 0, 1⟩, ⟨2, "hello".toList, "hB".toList, 0, 0, 1⟩,
         ⟨3, "halxlo".toList, "hC".toList, 0, 0, 1⟩] :=
  ⟨by decide,
   by
    rw [(C7_filtered_ordering
      ⟨[⟨2, "hello".toList, "hB".toList, 0, 0, 1⟩, ⟨1, "ahlo".toList, "hA".toList, 0, 0, 1⟩,
        ⟨4, "zzz".toList, "hD".toList, 0, 0, 1⟩, ⟨3, "halxlo".toList, "hC".toList, 0, 0, 1⟩],
       0, 0, "hlo".toList, false, none, none, 0, 0, 24, DeleteMode.none, 0⟩ (by decide)).1]
    decide⟩

theorem toNat_charOfNat {n : Nat} (h : n < 55296) : (Char.ofNat n).toNat = n := by
  have hv : Nat.isValidChar n := Or.inl h
  rw [Char.ofNat, dif_pos hv]
  rfl

theorem charLower_ascii {c : Char} (h : c.toNat < 128) : (charLower c).toNat < 128 := by
  unfold charLower
  by_cases h1 : 65 ≤ c.toNat ∧ c.toNat ≤ 90
  · rw [if_pos h1, toNat_charOfNat (by omega)]
    omega
  · rw [if_neg h1, if_neg (by omega)]
    exact h

theorem utf8Len_eq_one {c : Char} (h : c.toNat < 128) : utf8Len c = 1 := by
  unfold utf8Len
  rw [if_pos (by omega)]

theorem byteLen_ascii {s : List Char} (h : ∀ c ∈ s, c.toNat < 128) :
    byteLen s = s.length := by
  induction s with
  | nil => rfl
  | cons c cs ih =>
      simp only [byteLen, List.map_cons, List.sum_cons, List.length_cons] at ih ⊢
      rw [utf8Len_eq_one (h c (List.mem_cons_self c cs)),
        ih fun c' hc' => h c' (List.mem_cons_of_mem _ hc')]
      omega

theorem findSub_some {q t : List Char} {i : Nat} (h : findSub q t = some i) :
    (t.drop i).take q.length = q := by
  induction t generalizing i with
  | nil =>
      simp only [findSub] at h
      split at h
      · cases h
        simp_all
      · cases h
  | cons c t ih =>
      simp only [findSub] at h
      split at h
      · next heq =>
          cases h
          simpa using heq
      · obtain ⟨j, hj, rfl⟩ := Option.map_eq_some'.mp h
        simpa [List.drop_succ_cons] using ih hj

theorem findSub_none {q t : List Char} (h : findSub q t = none) :
    ∀ i, (t.drop i).take q.length ≠ q := by
  induction t with
  | nil =>
      intro i
      simp only [findSub] at h
      split at h
      · cases h
      · next hq =>
          simp only [List.drop_nil, List.take_nil]
          exact fun heq => hq heq.symm
  | cons c t ih =>
      intro i
      simp only [findSub] at h
      split at h
      · cases h
      · next hne =>
          have h2 : findSub q t = none := Option.map_eq_none'.mp h
          cases i with
          | zero => simpa using hne
          | succ j => simpa [List.drop_succ_cons] using ih h2 j

theorem findSub_le {q t : List Char} {i : Nat} (h : findSub q t = some i) :
    i ≤ t.length := by
  induction t generalizing i with
  | nil =>
      simp only [findSub] at h
      split at h
      · cases h
        exact Nat.le_refl 0
      · cases h
  | cons c t ih =>
      simp only [findSub] at h
      split at h
      · cases h
        exact Nat.zero_le _
      · obtain ⟨j, hj, rfl⟩ := Option.map_eq_some'.mp h
        have := ih hj
        simp only [List.length_cons]
        omega

theorem fuzzyScan_complete {ts : List (Nat × Char)} {q : List Char}
    (h : List.Sublist q (ts.map Prod.snd)) : ∃ ps, fuzzyScan ts q = some ps := by
  induction ts generalizing q with
  | nil =>
      have hq : q = [] := List.sublist_nil.mp (by simpa using h)
      subst hq
      exact ⟨[], rfl⟩
  | cons tc ts ih =>
      obtain ⟨i, t⟩ := tc
      cases q with
      | nil => exact ⟨[], rfl⟩
      | cons qh qt =>
          simp only [List.map_cons] at h
          by_cases he : t = qh
          · subst he
            have hsub : List.Sublist qt (ts.map Prod.snd) := by
              cases h with
              | cons _ h' => exact ((List.Sublist.refl qt).cons t).trans h'
              | cons₂ _ h' => exact h'
            obtain ⟨ps, hps⟩ := ih hsub
            exact ⟨(i, 1) :: ps, by simp [fuzzyScan, hps]⟩
          · have hsub : List.Sublist (qh :: qt) (ts.map Prod.snd) := by
              cases h with
              | cons _ h' => exact h'
              | cons₂ _ h' => exact absurd rfl he
            obtain ⟨ps, hps⟩ := ih hsub
            exact ⟨ps, by simp [fuzzyScan, he, hps]⟩

theorem fuzzyScan_sound {ts : List (Nat × Char)} {q : List Char} {ps : List (Nat × Nat)}
    (h : fuzzyScan ts q = some ps) : List.Sublist q (ts.map Prod.snd) := by
  induction ts generalizing q ps with
  | nil =>
      cases q with
      | nil => exact List.nil_sublist _
      | cons _ _ => simp [fuzzyScan] at h
  | cons tc ts ih =>
      obtain ⟨i, t⟩ := tc
      cases q with
      | nil => exact List.nil_sublist _
      | cons qh qt =>
          simp only [fuzzyScan] at h
          split at h
          · next he =>
              obtain ⟨ps', hps', _⟩ := Option.map_eq_some'.mp h
              subst he
              exact List.Sublist.cons₂ _ (ih hps')
          · next hne => exact (ih h).cons _

theorem fuzzyScan_sum {ts : List (Nat × Char)} {q : List Char} {ps : List (Nat × Nat)}
    (h : fuzzyScan ts q = some ps) : (ps.map (fun r => r.2)).sum = q.length := by
  induction ts generalizing q ps with
  | nil =>
      cases q with
      | nil =>
          simp only [fuzzyScan] at h
          cases h
          rfl
      | cons _ _ => simp [fuzzyScan] at h
  | cons tc ts ih =>
      obtain ⟨i, t⟩ := tc
      cases q with
      | nil =>
          simp only [fuzzyScan] at h
          cases h
          rfl
      | cons qh qt =>
          simp only [fuzzyScan] at h
          split at h
          · next he =>
              obtain ⟨ps', hps', rfl⟩ := Option.map_eq_some'.mp h
              simp only [List.map_cons, List.sum_cons, List.length_cons]
              rw [ih hps']
              omega
          · next hne => exact ih h

theorem mergeAdjacent_cons (l : List (Nat × Nat)) :
    ∀ p li, ∃ l' t, mergeAdjacent ((p, li) :: l) = (p, l') :: t := by
  induction l with
  | nil => exact fun p li => ⟨li, [], by simp [mergeAdjacent]⟩
  | cons hd rest ih =>
      intro p li
      obtain ⟨p₂, l₂⟩ := hd
      by_cases h : p + li = p₂
      · simp only [mergeAdjacent]
        rw [if_pos h]
        exact ih p (li + l₂)
      · simp only [mergeAdjacent]
        rw [if_neg h]
        exact ⟨li, _, rfl⟩

theorem mergeAdjacent_sum (l : List (Nat × Nat)) :
    ((mergeAdjacent l).map (fun r => r.2)).sum = (l.map (fun r => r.2)).sum := by
  induction l using mergeAdjacent.induct with
  | case1 => simp [mergeAdjacent]
  | case2 p => simp [mergeAdjacent]
  | case3 p₁ l₁ l₂ rest ih =>
      simp only [mergeAdjacent]
      rw [if_pos trivial, ih]
      simp only [List.map_cons, List.sum_cons]
      omega
  | case4 p₁ l₁ p₂ l₂ rest h ih =>
      simp only [mergeAdjacent]
      rw [if_neg h]
      simp only [List.map_cons, List.sum_cons]
      rw [ih]
      simp only [List.map_cons, List.sum_cons]

theorem mergeAdjacent_chain (l : List (Nat × Nat)) :
    List.Chain' (fun a b => a.1 + a.2 ≠ b.1) (mergeAdjacent l) := by
  induction l using mergeAdjacent.induct with
  | case1 => simp [mergeAdjacent]
  | case2 p => simp [mergeAdjacent]
  | case3 p₁ l₁ l₂ rest ih =>
      simp only [mergeAdjacent]
      rw [if_pos trivial]
      exact ih
  | case4 p₁ l₁ p₂ l₂ rest h ih =>
      simp only [mergeAdjacent]
      rw [if_neg h]
      obtain ⟨l', t, heq⟩ := mergeAdjacent_cons rest p₂ l₂
      rw [heq] at ih ⊢
      exact List.chain'_cons.mpr ⟨by simpa using h, ih⟩

theorem fuzzy_match_matched_iff (text query : List Char) :
    (fuzzy_match text query).matched = true
      ↔ List.Sublist (query.map charLower) (text.map charLower) := by
  simp only [fuzzy_match]
  cases hf : findSub (query.map charLower) (text.map charLower) with
  | some i =>
      simp only []
      constructor
      · intro _
        have hocc := findSub_some hf
        rw [← hocc]
        exact (List.take_sublist _ _).trans (List.drop_sublist _ _)
      · intro _
        trivial
  | none =>
      cases hs : fuzzyScan (text.map charLower).enum (query.map charLower) with
      | none =>
          simp only []
          constructor
          · intro hc
            cases hc
          · intro hsub
            obtain ⟨ps, hps⟩ :=
              @fuzzyScan_complete ((text.map charLower).enum) (query.map charLower)
                (by rw [List.enum_map_snd]; exact hsub)
            rw [hps] at hs
            cases hs
      | some ps =>
          simp only []
          constructor
          · intro _
            have := fuzzyScan_sound hs
            rwa [List.enum_map_snd] at this
          · intro _
            trivial

theorem fuzzy_match_exact_spec (text query : List Char)
    (htext : ∀ c ∈ text, c.toNat < 128) (hquery : ∀ c ∈ query, c.toNat < 128)
    (hocc : ∃ i, ((text.map charLower).drop i).take (query.map charLower).length
      = query.map charLower) :
    ∃ i, ((text.map charLower).drop i).take (query.map charLower).length
        = query.map charLower ∧
      fuzzy_match text query = ⟨true, [(i, (query.map charLower).length)], true⟩ := by
  cases hf : findSub (query.map charLower) (text.map charLower) with
  | none =>
      obtain ⟨i, hi⟩ := hocc
      exact absurd hi (findSub_none hf i)
  | some j =>
      refine ⟨j, findSub_some hf, ?_⟩
      simp only [fuzzy_match]
      rw [hf]
      dsimp only
      have h1 : byteLen ((text.map charLower).take j) = j := by
        rw [byteLen_ascii]
        · have hle := findSub_le hf
          rw [List.length_map] at hle
          rw [List.length_take, List.length_map]
          omega
        · intro c hc
          have hc' : c ∈ text.map charLower := List.mem_of_mem_take hc
          obtain ⟨c0, hc0, rfl⟩ := List.mem_map.mp hc'
          exact charLower_ascii (htext c0 hc0)
      have h2 : byteLen (query.map charLower) = (query.map charLower).length := by
        apply byteLen_ascii
        intro c hc
        obtain ⟨c0, hc0, rfl⟩ := List.mem_map.mp hc
        exact charLower_ascii (hquery c0 hc0)
      rw [h1, h2]

theorem fuzzy_match_cases (text query : List Char) :
    (∃ i, findSub (query.map charLower) (text.map charLower) = some i ∧
      fuzzy_match text query
        = ⟨true, [(byteLen ((text.map charLower).take i), byteLen (query.map charLower))],
           true⟩) ∨
    (findSub (query.map charLower) (text.map charLower) = none ∧
      fuzzyScan (text.map charLower).enum (query.map charLower) = none ∧
      fuzzy_match text query = ⟨false, [], false⟩) ∨
    (∃ ps, findSub (query.map charLower) (text.map charLower) = none ∧
      fuzzyScan (text.map charLower).enum (query.map charLower) = some ps ∧
      fuzzy_match text query = ⟨true, mergeAdjacent ps, false⟩) := by
  cases hf : findSub (query.map charLower) (text.map charLower) with
  | some i =>
      left
      refine ⟨i, rfl, ?_⟩
      simp only [fuzzy_match]
      rw [hf]
  | none =>
      cases hs : fuzzyScan (text.map charLower).enum (query.map charLower) with
      | none =>
          right; left
          refine ⟨rfl, rfl, ?_⟩
          simp only [fuzzy_match, hf, hs]
      | some ps =>
          right; right
          refine ⟨ps, rfl, rfl, ?_⟩
          simp only [fuzzy_match, hf, hs]

theorem fuzzy_match_no_positions (text query : List Char)
    (h : (fuzzy_match text query).matched = false) :
    (fuzzy_match text query).match_positions = [] := by
  rcases fuzzy_match_cases text query with ⟨i, _, heq⟩ | ⟨_, _, heq⟩ | ⟨ps, _, _, heq⟩ <;>
    rw [heq] at h ⊢ <;> simp_all

theorem fuzzy_match_fuzzy_positions (text query : List Char)
    (hm : (fuzzy_match text query).matched = true)
    (he : (fuzzy_match text query).is_exact = false) :
    (((fuzzy_match text query).match_positions.map (fun r => r.2)).sum
        = (query.map charLower).length) ∧
    List.Chain' (fun a b => a.1 + a.2 ≠ b.1) (fuzzy_match text query).match_positions := by
  rcases fuzzy_match_cases text query with ⟨i, _, heq⟩ | ⟨_, _, heq⟩ | ⟨ps, _, hs, heq⟩
  · rw [heq] at he
    simp at he
  · rw [heq] at hm
    simp at hm
  · rw [heq]
    constructor
    · rw [mergeAdjacent_sum, fuzzyScan_sum hs]
    · exact mergeAdjacent_chain ps

/-- C6 (amended): `fuzzy_match` first performs a case-insensitive exact
substring search; on success it returns `matched = true`, `exact = true`
with exactly one `(offset, length)` range covering the match, where the
offset and length are *byte* positions in the lowercased text — these
coincide with the text's character indexing exactly when text and query are
ASCII, the case proved here.  The matcher accepts a query iff its lowered
characters occur in order in the lowered text (so a query character that
cannot be found before the text is exhausted yields `matched = false`, with
no ranges), and in a non-exact match the per-character hits are merged into
contiguous ranges: no two consecutive reported ranges are adjacent, and the
range lengths sum to the query length.  The three concrete examples of the
claim hold as stated. -/
theorem C6_fuzzy_match_spec :
    (∀ text query : List Char, (∀ c ∈ text, c.toNat < 128) → (∀ c ∈ query, c.toNat < 128) →
      (∃ i, ((text.map charLower).drop i).take (query.map charLower).length
          = query.map charLower) →
      ∃ i, ((text.map charLower).drop i).take (query.map charLower).length
          = query.map charLower ∧
        fuzzy_match text query = ⟨true, [(i, (query.map charLower).length)], true⟩) ∧
    (∀ text query : List Char,
      (fuzzy_match text query).matched = true
        ↔ List.Sublist (query.map charLower) (text.map charLower)) ∧
    (∀ text query : List Char, (fuzzy_match text query).matched = false →
      (fuzzy_match text query).match_positions = []) ∧
    (∀ text query : List Char, (fuzzy_match text query).matched = true →
      (fuzzy_match text query).is_exact = false →
      (((fuzzy_match text query).match_positions.map (fun r => r.2)).sum
          = (query.map charLower).length ∧
       List.Chain' (fun a b => a.1 + a.2 ≠ b.1) (fuzzy_match text query).match_positions)) ∧
    fuzzy_match "hello world".toList "world".toList = ⟨true, [(6, 5)], true⟩ ∧
    (fuzzy_match "hello world".toList "hlo".toList).matched = true ∧
    (fuzzy_match "hello world".toList "hlo".toList).is_exact = false ∧
    (fuzzy_match "hello world".toList "xyz".toList).matched = false :=
  ⟨fuzzy_match_exact_spec, fuzzy_match_matched_iff, fuzzy_match_no_positions,
   fuzzy_match_fuzzy_positions, by decide, by decide, by decide, by decide⟩

/-- Counterexample to C6 as stated: on the non-ASCII text `"é world"` the
exact-match range is reported at byte offset 3 of the lowercased text, but in
the text's *character* indexing the match of `"world"` covers offset 2, not
3 — the range `(3, 5)` does not cover the match in character indexing. -/
theorem C6_fuzzy_match_spec_counterexample :
    (fuzzy_match "é world".toList "world".toList).match_positions = [(3, 5)] ∧
    ((("é world".toList.map charLower).drop 3).take 5 ≠ "world".toList.map charLower) ∧
    ((("é world".toList.map charLower).drop 2).take 5 = "world".toList.map charLower) :=
  ⟨by decide, by decide, by decide⟩

/-- Witness for C6 on the claim's own ASCII example. -/
theorem C6_fuzzy_match_spec_witness :
    (∀ c ∈ "hello world".toList, c.toNat < 128) ∧
    (∃ i, ((("hello world".toList.map charLower)).drop i).take
          ("world".toList.map charLower).length = "world".toList.map charLower ∧
      fuzzy_match "hello world".toList "world".toList
        = ⟨true, [(i, ("world".toList.map charLower).length)], true⟩) :=
  ⟨by decide,
   C6_fuzzy_match_spec.1 "hello world".toList "world".toList (by decide) (by decide)
     ⟨6, by decide⟩⟩

end Clippie
